import Mathlib

/- Shallow embedding of `src/lib/match.ts`, a path-pattern compiler in the
   style of path-to-regexp: a lexer, a parser producing path tokens, a
   path-builder compiler, a pattern-to-regex compiler and a matcher.  The
   regular expressions the compiler emits are modelled by an explicit
   syntax tree `Re` together with an executable backtracking engine whose
   outcome order follows the ECMAScript semantics (leftmost match, greedy
   and lazy quantifier ordering, left-first alternation). -/

set_option maxRecDepth 4096

/-- ASCII canonicalization used by the regex `i` flag: both sides of a
character comparison are uppercased when `ci` is set. -/
def canon (ci : Bool) (c : Char) : Char :=
  if ci then c.toUpper else c

/-- The characters that `escapeString` in match.ts escapes. -/
def escapeSet : List Char :=
  ['.', '+', '*', '?', '=', '^', '!', ':', '$', '{', '}', '(', ')', '[', ']', '|', '/', '\\']

/-- One step of `escapeString`: prefix a metacharacter with a backslash. -/
def escChars (c : Char) : List Char :=
  if escapeSet.contains c then ['\\', c] else [c]

/-- `escChars` as a string (used when rendering one literal). -/
def escapeChar (c : Char) : String :=
  String.mk (escChars c)

/-- `escapeString` from match.ts: `str.replace(/([.+*?=^!:${}()[\]|/\\])/g, "\\$1")`,
a per-character global replace. -/
def escapeString (s : String) : String :=
  String.mk (s.data.flatMap escChars)

/-- Syntax tree for the regular-expression dialect emitted by the compiler:
literals, character classes, concatenation, alternation, non-capturing and
capturing groups, greedy `*`/`+`/`?`, lazy `*?`/`+?`, lookahead, and the
`^`/`$` anchors. Capturing groups carry their 0-based group number. -/
inductive Re : Type where
  | eps
  | lit (c : Char)
  | cls (cs : List Char) (neg : Bool)
  | seq (a b : Re)
  | alt (a b : Re)
  | ncg (r : Re)
  | grp (idx : Nat) (r : Re)
  | star (r : Re)
  | starLazy (r : Re)
  | plusG (r : Re)
  | plusLazy (r : Re)
  | quest (r : Re)
  | look (r : Re)
  | bol
  | eol
deriving Repr, DecidableEq, Inhabited

/-- Render a `Re` back to ECMAScript regex source text.  Literal characters
render through `escapeChar`, so a rendered tree reproduces exactly the
route string the compiler builds. -/
def render : Re → String
  | .eps => ""
  | .lit c => escapeChar c
  | .cls cs neg => "[" ++ (if neg then "^" else "") ++ escapeString (String.mk cs) ++ "]"
  | .seq a b => render a ++ render b
  | .alt a b => render a ++ "|" ++ render b
  | .ncg r => "(?:" ++ render r ++ ")"
  | .grp _ r => "(" ++ render r ++ ")"
  | .star r => render r ++ "*"
  | .starLazy r => render r ++ "*?"
  | .plusG r => render r ++ "+"
  | .plusLazy r => render r ++ "+?"
  | .quest r => render r ++ "?"
  | .look r => "(?=" ++ render r ++ ")"
  | .bol => "^"
  | .eol => "$"

/-- Number of capturing groups in a tree. -/
def numGroups : Re → Nat
  | .eps | .lit _ | .cls _ _ | .bol | .eol => 0
  | .seq a b => numGroups a + numGroups b
  | .alt a b => numGroups a + numGroups b
  | .ncg r | .star r | .starLazy r | .plusG r | .plusLazy r | .quest r | .look r => numGroups r
  | .grp _ r => 1 + numGroups r

/-- The group numbers of the capturing groups, in left-to-right order of
their opening parentheses (the ECMAScript numbering order). -/
def groupIdxs : Re → List Nat
  | .eps | .lit _ | .cls _ _ | .bol | .eol => []
  | .seq a b => groupIdxs a ++ groupIdxs b
  | .alt a b => groupIdxs a ++ groupIdxs b
  | .ncg r | .star r | .starLazy r | .plusG r | .plusLazy r | .quest r | .look r => groupIdxs r
  | .grp i r => i :: groupIdxs r

/-- Captured groups: slot `k` holds the text of group number `k`, `none`
standing for an `undefined` (never matched) capture. -/
abbrev Caps := List (Option String)

/-- Character-class membership test, under `i`-flag canonicalization:
`neg` selects a negated class. -/
def clsMatch (ci : Bool) (cs : List Char) (neg : Bool) (d : Char) : Bool :=
  (cs.any fun c => canon ci c = canon ci d) != neg

/-- Type of the backtracking matcher: from a syntax tree, subject string,
case flag, position and captures, the list of all ways the tree can match,
as (end position, captures) pairs in backtracking priority order; the head
is the alternative the ECMAScript engine commits to. -/
abbrev RunFn := Re → List Char → Bool → Nat → Caps → List (Nat × Caps)

/-- One fuel level of the engine.  `next` is invoked for the self-recursive
steps of `*`-like loops; those steps are gated on strict progress
(`pos < p ∧ p ≤ s.length`), which is the ECMAScript rule that a quantifier
iteration matching the empty string terminates the loop. -/
def runAux (next : RunFn) : RunFn
  | .eps, _, _, pos, caps => [(pos, caps)]
  | .lit c, s, ci, pos, caps =>
    match s.get? pos with
    | some d => if canon ci d = canon ci c then [(pos + 1, caps)] else []
    | none => []
  | .cls cs neg, s, ci, pos, caps =>
    match s.get? pos with
    | some d => if clsMatch ci cs neg d then [(pos + 1, caps)] else []
    | none => []
  | .seq a b, s, ci, pos, caps =>
    (runAux next a s ci pos caps).flatMap fun pc => runAux next b s ci pc.1 pc.2
  | .alt a b, s, ci, pos, caps =>
    runAux next a s ci pos caps ++ runAux next b s ci pos caps
  | .ncg r, s, ci, pos, caps => runAux next r s ci pos caps
  | .grp idx r, s, ci, pos, caps =>
    (runAux next r s ci pos caps).map fun pc =>
      (pc.1, pc.2.set idx (some (String.mk ((s.drop pos).take (pc.1 - pos)))))
  | .star r, s, ci, pos, caps =>
    (((runAux next r s ci pos caps).filter fun pc => pos < pc.1 && pc.1 ≤ s.length).flatMap
      fun pc => next (.star r) s ci pc.1 pc.2) ++ [(pos, caps)]
  | .starLazy r, s, ci, pos, caps =>
    (pos, caps) ::
      (((runAux next r s ci pos caps).filter fun pc => pos < pc.1 && pc.1 ≤ s.length).flatMap
        fun pc => next (.starLazy r) s ci pc.1 pc.2)
  | .plusG r, s, ci, pos, caps =>
    (runAux next r s ci pos caps).flatMap fun pc =>
      if pos < pc.1 && pc.1 ≤ s.length then next (.star r) s ci pc.1 pc.2
      else [(pc.1, pc.2)]
  | .plusLazy r, s, ci, pos, caps =>
    (runAux next r s ci pos caps).flatMap fun pc =>
      if pos < pc.1 && pc.1 ≤ s.length then next (.starLazy r) s ci pc.1 pc.2
      else [(pc.1, pc.2)]
  | .quest r, s, ci, pos, caps =>
    runAux next r s ci pos caps ++ [(pos, caps)]
  | .look r, s, ci, pos, caps =>
    if (runAux next r s ci pos caps).isEmpty then [] else [(pos, caps)]
  | .bol, _, _, pos, caps => if pos = 0 then [(pos, caps)] else []
  | .eol, s, _, pos, caps => if pos = s.length then [(pos, caps)] else []

/-- Fueled engine; one unit of fuel is spent per quantifier loop step, and
every loop step strictly advances the position, so fuel `s.length + 1`
always suffices (see `runTop`). -/
def run : Nat → RunFn
  | 0 => fun _ _ _ _ _ => []
  | f + 1 => runAux (run f)

/-- The engine with always-sufficient fuel. -/
def runTop (re : Re) (s : List Char) (ci : Bool) (pos : Nat) (caps : Caps) :
    List (Nat × Caps) :=
  run (s.length + 1) re s ci pos caps

/-- Try anchoring the whole tree at successive start positions; the first
position with a non-empty outcome list wins (ECMAScript `exec` scanning). -/
def execFrom (re : Re) (s : List Char) (ci : Bool) : Nat → Nat → Option (Nat × Nat × Caps)
  | _, 0 => none
  | start, t + 1 =>
    match (runTop re s ci start (List.replicate (numGroups re) none)).head? with
    | some pc => some (start, pc.1, pc.2)
    | none => execFrom re s ci (start + 1) t

/-- `re.exec(s)`: `some (index, endPos, captures)` for the leftmost match,
`none` when there is no match. -/
def exec (re : Re) (s : List Char) (ci : Bool) : Option (Nat × Nat × Caps) :=
  execFrom re s ci 0 (s.length + 1)

/-- `re.test(s)` for a validation regex. -/
def reTest (re : Re) (ci : Bool) (s : String) : Bool :=
  (exec re s.data ci).isSome

/-- Lexical token kinds of match.ts. -/
inductive TokType where
  | OPEN | CLOSE | PATTERN | NAME | CHAR | ESCAPED_CHAR | MODIFIER | END
deriving DecidableEq, Repr

/-- A lexical token `{ type, index, value }`.  `value` is `Option String`
because `str[i]` past the end of a JavaScript string is `undefined`. -/
structure LexToken where
  type : TokType
  index : Nat
  value : Option String
deriving DecidableEq, Repr

/-- The positioned lexer errors of match.ts, plus `noFuel`, a sentinel for
fuel exhaustion that cannot occur at the fuel `lexString` supplies (the
lexer consumes at least one character per emitted token). -/
inductive LexError where
  | missingParameterName (i : Nat)
  | patternStartsWithQuestionMark (i : Nat)
  | capturingGroupNotAllowed (i : Nat)
  | unbalancedPattern (i : Nat)
  | missingPattern (i : Nat)
  | noFuel
deriving DecidableEq, Repr

/-- `[0-9A-Za-z_]`, the identifier-character test of the `:` branch. -/
def isIdentCode (c : Char) : Bool :=
  let code := c.toNat
  (48 ≤ code && code ≤ 57) || (65 ≤ code && code ≤ 90) ||
    (97 ≤ code && code ≤ 122) || code == 95

/-- Scan a parameter name: the run of identifier characters, the remaining
characters, and the run's length. -/
def scanName : List Char → String × List Char × Nat
  | [] => ("", [], 0)
  | c :: cs =>
    if isIdentCode c then
      let r := scanName cs
      (String.singleton c ++ r.1, r.2.1, r.2.2 + 1)
    else ("", c :: cs, 0)

/-- Scan an inline `(...)` pattern body.  Arguments: remaining characters,
absolute index `j`, open-parenthesis count, accumulated pattern.  Returns
the pattern text, the remaining characters, the index after the scan and
the final count (non-zero when the parentheses never balanced).  A `\`
escape copies two characters; at end of string JavaScript appends
`"\\" + undefined`, i.e. the text `undefined`, before the balance check
fails. -/
def scanPattern : List Char → Nat → Nat → String → Except LexError (String × List Char × Nat × Nat)
  | [], j, count, acc => .ok (acc, [], j, count)
  | '\\' :: cs, j, count, acc =>
    match cs with
    | [] => .ok (acc ++ "\\undefined", [], j + 2, count)
    | d :: cs' => scanPattern cs' (j + 2) count (acc ++ String.mk ['\\', d])
  | ')' :: cs, j, count, acc =>
    if count = 1 then .ok (acc, cs, j + 1, 0)
    else scanPattern cs (j + 1) (count - 1) (acc.push ')')
  | '(' :: cs, j, count, acc =>
    if cs.head? = some '?' then scanPattern cs (j + 1) (count + 1) (acc.push '(')
    else .error (.capturingGroupNotAllowed j)
  | c :: cs, j, count, acc => scanPattern cs (j + 1) count (acc.push c)

/-- The lexer loop of match.ts, one fuel unit per loop iteration; every
iteration consumes at least one character, so the fuel of `lexString`
suffices.  `i` tracks the absolute source offset for diagnostics. -/
def lexAux : Nat → List Char → Nat → List LexToken → Except LexError (List LexToken)
  | _, [], i, acc => .ok (acc ++ [⟨.END, i, some ""⟩])
  | 0, _ :: _, _, _ => .error .noFuel
  | f + 1, c :: rest, i, acc =>
    if c = '*' ∨ c = '+' ∨ c = '?' then
      lexAux f rest (i + 1) (acc ++ [⟨.MODIFIER, i, some (String.singleton c)⟩])
    else if c = '\\' then
      lexAux f (rest.drop 1) (i + 2)
        (acc ++ [⟨.ESCAPED_CHAR, i, rest.head?.map String.singleton⟩])
    else if c = '{' then
      lexAux f rest (i + 1) (acc ++ [⟨.OPEN, i, some "\x7b"⟩])
    else if c = '}' then
      lexAux f rest (i + 1) (acc ++ [⟨.CLOSE, i, some "\x7d"⟩])
    else if c = ':' then
      let r := scanName rest
      if r.1 = "" then .error (.missingParameterName i)
      else lexAux f r.2.1 (i + 1 + r.2.2) (acc ++ [⟨.NAME, i, some r.1⟩])
    else if c = '(' then
      if rest.head? = some '?' then .error (.patternStartsWithQuestionMark (i + 1))
      else
        match scanPattern rest (i + 1) 1 "" with
        | .error e => .error e
        | .ok (pattern, rest', j', count) =>
          if count ≠ 0 then .error (.unbalancedPattern i)
          else if pattern = "" then .error (.missingPattern i)
          else lexAux f rest' j' (acc ++ [⟨.PATTERN, i, some pattern⟩])
    else
      lexAux f rest (i + 1) (acc ++ [⟨.CHAR, i, some (String.singleton c)⟩])

/-- `lexer` from match.ts. -/
def lexString (s : String) : Except LexError (List LexToken) :=
  lexAux (s.length + 1) s.data 0 []

instance {ε α : Type _} [DecidableEq ε] [DecidableEq α] : DecidableEq (Except ε α) := fun x y =>
  match x, y with
  | .ok a, .ok b => if h : a = b then .isTrue (by rw [h]) else .isFalse (by simp [h])
  | .error a, .error b => if h : a = b then .isTrue (by rw [h]) else .isFalse (by simp [h])
  | .ok _, .error _ => .isFalse (by simp)
  | .error _, .ok _ => .isFalse (by simp)

/-- `Key.name` is `string | number` in the source: a declared identifier or
an auto-incremented ordinal for unnamed pattern groups. -/
inductive KeyName where
  | str (s : String)
  | num (n : Nat)
deriving DecidableEq, Repr

/-- JavaScript object-property coercion of a key name (`params[key.name]`
stringifies a numeric name). -/
def nameStr : KeyName → String
  | .str s => s
  | .num n => toString n

/-- A parameter descriptor.  `pre` and `suffix` are the source's `prefix`
and `suffix` fields (`prefix` is a Lean keyword). -/
structure Key where
  name : KeyName
  pre : String
  suffix : String
  pattern : String
  modifier : String
deriving DecidableEq, Repr

/-- A path token: `string | Key` in the source. -/
inductive Token where
  | str (s : String)
  | key (k : Key)
deriving DecidableEq, Repr

/-- All compile options in one record (the source splits them over
`ParseOptions`, `TokensToFunctionOptions`, `TokensToRegexpOptions` and
`RegexpToFunctionOptions`, but callers pass a single object).  `endOpt`
is the source's `end` (a Lean keyword); `encode` is the
`tokensToRegexp` encode hook, `encodeB` the `tokensToFunction` one. -/
structure PathOptions where
  delimiter : Option String := none
  prefixes : Option String := none
  sensitive : Bool := false
  strict : Option Bool := none
  endOpt : Option Bool := none
  start : Option Bool := none
  endsWith : Option String := none
  encode : String → String := fun x => x
  encodeB : String → Key → String := fun x _ => x
  decode : String → Key → String := fun x _ => x
  validate : Bool := true

/-- JavaScript `a || d` for an optional string: `undefined` and `""` both
fall through to the default. -/
def jsOr (o : Option String) (d : String) : String :=
  match o with
  | none => d
  | some s => if s = "" then d else s

/-- `flags(options)` returns `"i"` unless `sensitive`; we model the flag as
the Boolean `ci`. -/
def flagCI (o : PathOptions) : Bool := !o.sensitive

/-- Parser errors: a propagated lexer error, the positioned
`Unexpected <type> at <index>, expected <type>` error, and two sentinels:
`oob` models a JavaScript crash on reading `tokens[i]` past the end (not
reachable from `parse`, whose token stream always ends in `END`), and
`noFuel` models loop-fuel exhaustion (not reachable either: every loop
iteration consumes at least one token). -/
inductive ParseError where
  | lex (e : LexError)
  | unexpectedToken (found : TokType) (index : Nat) (expected : TokType)
  | oob
  | noFuel
deriving DecidableEq, Repr

/-- `tryConsume`: pop the head token when its type matches, yielding its
value.  A consumed token whose value is `undefined` is indistinguishable
to the caller from no token (JavaScript returns `undefined` either way),
but the stream still advances — hence the joined `Option`. -/
def tryConsume (ty : TokType) : List LexToken → Option String × List LexToken
  | [] => (none, [])
  | t :: ts => if t.type = ty then (t.value, ts) else (none, t :: ts)

/-- `mustConsume`: like `tryConsume` but a failure raises the positioned
`UnexpectedToken` error. -/
def mustConsume (ty : TokType) (ts : List LexToken) :
    Except ParseError (String × List LexToken) :=
  match tryConsume ty ts with
  | (some v, ts') => .ok (v, ts')
  | (none, ts') =>
    match ts' with
    | t :: _ => .error (.unexpectedToken t.type t.index ty)
    | [] => .error .oob

/-- `consumeText`: the run of `CHAR`/`ESCAPED_CHAR` values;
an `undefined`-valued escaped token is consumed but ends the run. -/
def consumeText : List LexToken → String × List LexToken
  | [] => ("", [])
  | t :: ts =>
    if t.type = .CHAR ∨ t.type = .ESCAPED_CHAR then
      match t.value with
      | some v =>
        let r := consumeText ts
        (v ++ r.1, r.2)
      | none => ("", ts)
    else ("", t :: ts)

/-- The parser loop of match.ts, one fuel unit per iteration (each
iteration consumes at least one token, so the fuel `parse` supplies
suffices).  State: remaining tokens, prefix-character set, default
pattern, next ordinal `key`, pending literal `path`, accumulated result. -/
def parseLoop (prefixes defaultPattern : String) :
    Nat → List LexToken → Nat → String → List Token → Except ParseError (List Token)
  | _, [], _, _path, acc => .ok acc
  | 0, _ :: _, _, _, _ => .error .noFuel
  | f + 1, ts, key, path, acc =>
    let c1 := tryConsume .CHAR ts
    let c2 := tryConsume .NAME c1.2
    let c3 := tryConsume .PATTERN c2.2
    if c2.1.isSome ∨ c3.1.isSome then
      let pre0 := c1.1.getD ""
      -- `prefixes.indexOf(prefix) === -1`; indexOf of `""` is 0 (found)
      let keepPre := pre0 = "" ∨ (pre0.data.all fun c => prefixes.data.contains c)
      let path1 := if keepPre then path else path ++ pre0
      let pre1 := if keepPre then pre0 else ""
      let acc1 := if path1 ≠ "" then acc ++ [.str path1] else acc
      let c4 := tryConsume .MODIFIER c3.2
      let nm : KeyName × Nat :=
        match c2.1 with
        | some n => (.str n, key)
        | none => (.num key, key + 1)
      let k : Key :=
        { name := nm.1, pre := pre1, suffix := "",
          pattern := (c3.1).getD defaultPattern, modifier := (c4.1).getD "" }
      parseLoop prefixes defaultPattern f c4.2 nm.2 "" (acc1 ++ [.key k])
    else
      let cv : Option String × List LexToken :=
        match c1.1 with
        | some c => (some c, c3.2)
        | none => tryConsume .ESCAPED_CHAR c3.2
      match cv.1 with
      | some v => parseLoop prefixes defaultPattern f cv.2 key (path ++ v) acc
      | none =>
        let acc1 := if path ≠ "" then acc ++ [.str path] else acc
        let c5 := tryConsume .OPEN cv.2
        if (c5.1).isSome then
          let t1 := consumeText c5.2
          let c6 := tryConsume .NAME t1.2
          let c7 := tryConsume .PATTERN c6.2
          let t2 := consumeText c7.2
          match mustConsume .CLOSE t2.2 with
          | .error e => .error e
          | .ok vr =>
            let c8 := tryConsume .MODIFIER vr.2
            let nm : KeyName × Nat :=
              match c6.1 with
              | some n => (.str n, key)
              | none =>
                match c7.1 with
                | some _ => (.num key, key + 1)
                | none => (.str "", key)
            let pat : String :=
              match c6.1, c7.1 with
              | some _, none => defaultPattern
              | _, _ => (c7.1).getD ""
            let k : Key :=
              { name := nm.1, pre := t1.1, suffix := t2.1,
                pattern := pat, modifier := (c8.1).getD "" }
            parseLoop prefixes defaultPattern f c8.2 nm.2 "" (acc1 ++ [.key k])
        else
          match mustConsume .END c5.2 with
          | .error e => .error e
          | .ok vr => parseLoop prefixes defaultPattern f vr.2 key "" acc1

/-- `parse` from match.ts: lex, then run the parser loop with
`prefixes ?? "./"` and the default parameter pattern
`[^<escaped delimiter>]+?` (delimiter `options.delimiter || "/#?"`). -/
def parse (s : String) (o : PathOptions) : Except ParseError (List Token) :=
  match lexString s with
  | .error e => .error (.lex e)
  | .ok tokens =>
    let prefixes := o.prefixes.getD "./"
    let defaultPattern := "[^" ++ escapeString (jsOr o.delimiter "/#?") ++ "]+?"
    parseLoop prefixes defaultPattern (tokens.length + 1) tokens 0 "" []

/-- Concatenation of a fragment list into one tree. -/
def seqList : List Re → Re
  | [] => .eps
  | r :: rs => .seq r (seqList rs)

/-- A run of literal characters. -/
def lits : List Char → Re
  | [] => .eps
  | c :: cs => .seq (.lit c) (lits cs)

/-- A literal string fragment; renders as `escapeString s`. -/
def litsOf (s : String) : Re := lits s.data

/-- Runtime parameter values handed to a compiled path builder:
JavaScript strings, numbers, or arrays of strings. -/
inductive ParamValue where
  | s (v : String)
  | n (v : Int)
  | arr (vs : List String)
deriving DecidableEq, Repr

/-- `String(value)` on a scalar. -/
def jsString : ParamValue → String
  | .s v => v
  | .n v => toString v
  | .arr _ => ""

/-- The value errors a compiled path builder throws. -/
inductive BuildError where
  | notRepeatable (name : String)
  | emptyRepeatable (name : String)
  | mismatch (name : String) (pattern : String) (segment : String)
  | expectedType (name : String) (ty : String)
deriving DecidableEq, Repr

/-- The per-Key validation regex of `tokensToFunction`:
`new RegExp("^(?:" + pattern + ")$", flags)`.  `pat` interprets a pattern
fragment string as a tree. -/
def valRe (pat : String → Re) (k : Key) : Re :=
  seqList [.bol, .ncg (pat k.pattern), .eol]

/-- One iteration of the loop inside the function `tokensToFunction`
returns: append a literal, or render one Key from the supplied data,
enforcing the modifier rules and per-element validation. -/
def tokenStep (pat : String → Re) (o : PathOptions)
    (data : Option (String → Option ParamValue)) (path : String) (t : Token) :
    Except BuildError String :=
  match t with
  | .str s => .ok (path ++ s)
  | .key token =>
    let value := match data with
      | none => none
      | some d => d (nameStr token.name)
    let optional := token.modifier = "?" ∨ token.modifier = "*"
    let rep := token.modifier = "*" ∨ token.modifier = "+"
    match value with
    | some (.arr vs) =>
      if ¬rep then .error (.notRepeatable (nameStr token.name))
      else if vs = [] then
        if optional then .ok path else .error (.emptyRepeatable (nameStr token.name))
      else
        vs.foldlM (fun p v =>
          let segment := o.encodeB v token
          if o.validate ∧ ¬reTest (valRe pat token) (flagCI o) segment then
            .error (.mismatch (nameStr token.name) token.pattern segment)
          else .ok (p ++ token.pre ++ segment ++ token.suffix)) path
    | some v =>
      let segment := o.encodeB (jsString v) token
      if o.validate ∧ ¬reTest (valRe pat token) (flagCI o) segment then
        .error (.mismatch (nameStr token.name) token.pattern segment)
      else .ok (path ++ token.pre ++ segment ++ token.suffix)
    | none =>
      if optional then .ok path
      else .error (.expectedType (nameStr token.name)
        (if rep then "an array" else "a string"))

/-- `tokensToFunction` from match.ts: fold the token list, starting from
the empty path; a thrown error aborts the whole render. -/
def tokensToFunction (pat : String → Re) (tokens : List Token) (o : PathOptions)
    (data : Option (String → Option ParamValue)) : Except BuildError String :=
  tokens.foldlM (tokenStep pat o data) ""

/-- `compile` from match.ts: parse, then build the path function. -/
def compileModel (pat : String → Re) (s : String) (o : PathOptions) :
    Except ParseError ((Option (String → Option ParamValue)) → Except BuildError String) :=
  (parse s o).map fun tokens data => tokensToFunction pat tokens o data

/-- Apply a modifier suffix to a rendered fragment (tree side).  Only
`""`, `"?"`, `"*"`, `"+"` occur in parsed tokens. -/
def applyMod (m : String) (r : Re) : Re :=
  if m = "?" then .quest r
  else if m = "*" then .star r
  else if m = "+" then .plusG r
  else r

/-- The route fragment `tokensToRegexp` emits for one Key (string form).
`pre`/`suf` are already escaped-and-encoded as in the source. -/
def keyFragment (encode : String → String) (k : Key) : String :=
  let pre := escapeString (encode k.pre)
  let suf := escapeString (encode k.suffix)
  if k.pattern ≠ "" then
    if pre ≠ "" ∨ suf ≠ "" then
      if k.modifier = "+" ∨ k.modifier = "*" then
        let mod := if k.modifier = "*" then "?" else ""
        "(?:" ++ pre ++ "((?:" ++ k.pattern ++ ")(?:" ++ suf ++ pre ++ "(?:" ++
          k.pattern ++ "))*)" ++ suf ++ ")" ++ mod
      else "(?:" ++ pre ++ "(" ++ k.pattern ++ ")" ++ suf ++ ")" ++ k.modifier
    else "(" ++ k.pattern ++ ")" ++ k.modifier
  else "(?:" ++ pre ++ suf ++ ")" ++ k.modifier

/-- The same fragment as a tree; `idx` is the capture-group number the
Key's group receives (the current length of the keys list). -/
def keyFragmentRe (pat : String → Re) (encode : String → String) (idx : Nat) (k : Key) : Re :=
  let preRaw := encode k.pre
  let sufRaw := encode k.suffix
  let pre := escapeString preRaw
  let suf := escapeString sufRaw
  if k.pattern ≠ "" then
    if pre ≠ "" ∨ suf ≠ "" then
      if k.modifier = "+" ∨ k.modifier = "*" then
        let inner : Re :=
          .seq (.ncg (pat k.pattern))
            (.star (.ncg (.seq (litsOf sufRaw) (.seq (litsOf preRaw) (.ncg (pat k.pattern))))))
        let base : Re := .ncg (.seq (litsOf preRaw) (.seq (.grp idx inner) (litsOf sufRaw)))
        if k.modifier = "*" then .quest base else base
      else
        applyMod k.modifier
          (.ncg (.seq (litsOf preRaw) (.seq (.grp idx (pat k.pattern)) (litsOf sufRaw))))
    else applyMod k.modifier (.grp idx (pat k.pattern))
  else applyMod k.modifier (.ncg (.seq (litsOf preRaw) (litsOf sufRaw)))

/-- Truthiness of `options.endsWith`. -/
def endsWithTruthy (o : PathOptions) : Bool :=
  match o.endsWith with
  | some s => s ≠ ""
  | none => false

/-- The `isEndDelimited` test of the `end:false` branch: the last
character of a trailing literal token is searched for in the delimiter
CLASS STRING (brackets and backslashes included), exactly as
`delimiter.indexOf(...) > -1` does. -/
def isEndDelimited (tokens : List Token) (delimiterStr : String) : Bool :=
  match tokens.getLast? with
  | some (.str s) =>
    match s.data.getLast? with
    | some c => delimiterStr.data.contains c
    | none => false
  | some (.key _) => false
  | none => true

/-- `tokensToRegexp` from match.ts, string form: the exact route text and
the keys list after appending every capture-backed Key. -/
def tokensToRegexp (tokens : List Token) (keys : List Key) (o : PathOptions) :
    String × List Key :=
  let strict := o.strict.getD false
  let endB := o.endOpt.getD true
  let start := o.start.getD true
  let endsWith := "[" ++ escapeString (o.endsWith.getD "") ++ "]|$"
  let delimiter := "[" ++ escapeString (jsOr o.delimiter "/#?") ++ "]"
  let body := tokens.foldl (fun (acc : String × List Key) t =>
    match t with
    | .str s => (acc.1 ++ escapeString (o.encode s), acc.2)
    | .key token =>
      (acc.1 ++ keyFragment o.encode token,
       if token.pattern ≠ "" then acc.2 ++ [token] else acc.2))
    ((if start then "^" else ""), keys)
  let route :=
    if endB then
      (if ¬strict then body.1 ++ delimiter ++ "?" else body.1) ++
        (if ¬endsWithTruthy o then "$" else "(?=" ++ endsWith ++ ")")
    else
      let r1 := if ¬strict then body.1 ++ "(?:" ++ delimiter ++ "(?=" ++ endsWith ++ "))?"
        else body.1
      if ¬isEndDelimited tokens delimiter then
        r1 ++ "(?=" ++ delimiter ++ "|" ++ endsWith ++ ")"
      else r1
  (route, body.2)

/-- `tokensToRegexp`, tree form: same structure, emitting `Re` fragments;
capture-group numbers are assigned from the running keys-list length. -/
def tokensToRegexpRe (pat : String → Re) (tokens : List Token) (keys : List Key)
    (o : PathOptions) : Re × List Key :=
  let strict := o.strict.getD false
  let endB := o.endOpt.getD true
  let start := o.start.getD true
  let delimiterStr := "[" ++ escapeString (jsOr o.delimiter "/#?") ++ "]"
  let delimRe : Re := .cls (jsOr o.delimiter "/#?").data false
  let endsWithRe : Re := .alt (.cls (o.endsWith.getD "").data false) .eol
  let body := tokens.foldl (fun (acc : List Re × List Key) t =>
    match t with
    | .str s => (acc.1 ++ [litsOf (o.encode s)], acc.2)
    | .key token =>
      (acc.1 ++ [keyFragmentRe pat o.encode acc.2.length token],
       if token.pattern ≠ "" then acc.2 ++ [token] else acc.2))
    (([] : List Re), keys)
  let tailFrags : List Re :=
    if endB then
      (if ¬strict then [.quest delimRe] else []) ++
        [if ¬endsWithTruthy o then .eol else .look endsWithRe]
    else
      (if ¬strict then [.quest (.ncg (.seq delimRe (.look endsWithRe)))] else []) ++
        (if ¬isEndDelimited tokens delimiterStr then [.look (.alt delimRe endsWithRe)] else [])
  (seqList ((if start then [.bol] else []) ++ body.1 ++ tailFrags), body.2)

/-- A decoded parameter value in a match result: a scalar for `""`/`"?"`
keys, a sequence for `"*"`/`"+"` keys. -/
inductive MVal where
  | one (s : String)
  | many (vs : List String)
deriving DecidableEq, Repr

/-- A successful match: the matched substring, its start offset, and the
decoded parameters. -/
structure MatchRes where
  path : String
  index : Nat
  params : List (String × MVal)
deriving DecidableEq, Repr

/-- Splitting scan for a non-empty separator: leftmost non-overlapping
occurrences.  One fuel unit per step; every step consumes at least one
character, so the fuel `jsSplit` supplies suffices. -/
def splitAux (sep : List Char) : Nat → List Char → List Char → List (List Char)
  | _, [], acc => [acc.reverse]
  | 0, _ :: _, acc => [acc.reverse]
  | f + 1, c :: cs, acc =>
    if sep.isPrefixOf (c :: cs) then
      acc.reverse :: splitAux sep f ((c :: cs).drop sep.length) []
    else splitAux sep f cs (c :: acc)

/-- JavaScript `String.prototype.split` with a string separator:
leftmost non-overlapping occurrences; the empty separator splits into
single characters. -/
def jsSplit (s : String) (sep : String) : List String :=
  if sep = "" then s.data.map String.singleton
  else (splitAux sep.data (s.length + 1) s.data []).map String.mk

/-- JavaScript object-property assignment on `params`: update in place
when the name exists, append otherwise. -/
def setParam (ps : List (String × MVal)) (n : String) (v : MVal) : List (String × MVal) :=
  if ps.any (·.1 = n) then ps.map fun p => if p.1 = n then (n, v) else p
  else ps ++ [(n, v)]

/-- Decode one defined capture for its Key: repeat modifiers split the
capture on `key.prefix + key.suffix` and decode each element, others
decode the whole capture. -/
def decodeVal (decode : String → Key → String) (k : Key) (v : String) : MVal :=
  if k.modifier = "*" ∨ k.modifier = "+" then
    .many ((jsSplit v (k.pre ++ k.suffix)).map fun x => decode x k)
  else .one (decode v k)

/-- The params-building loop of `regexpToFunction`: walk the capture list
(1-indexed in the source, positionally aligned with `keys`), skipping
`undefined` captures, assigning into a prototype-free object. -/
def buildParams (decode : String → Key → String) (keys : List Key) (caps : Caps) :
    List (String × MVal) :=
  (keys.zip caps).foldl
    (fun ps kc =>
      match kc.2 with
      | none => ps
      | some v => setParam ps (nameStr kc.1.name) (decodeVal decode kc.1 v))
    []

/-- `regexpToFunction` from match.ts: execute the regex once; no match is
`false` (here `none`); a match yields path, index and decoded params. -/
def regexpToFunction (re : Re) (ci : Bool) (keys : List Key)
    (decode : String → Key → String) (pathname : String) : Option MatchRes :=
  match exec re pathname.data ci with
  | none => none
  | some (start, endPos, caps) =>
    some { path := String.mk ((pathname.data.drop start).take (endPos - start)),
           index := start,
           params := buildParams decode keys caps }

/-- `stringToRegexp`: parse then compile to (regex, keys). -/
def stringToRegexpRe (pat : String → Re) (s : String) (keys : List Key) (o : PathOptions) :
    Except ParseError (Re × List Key) :=
  (parse s o).map fun tokens => tokensToRegexpRe pat tokens keys o

/-- Right-nested alternation, rendering as `p1|p2|...|pn`. -/
def altList : List Re → Re
  | [] => .eps
  | [r] => r
  | r :: rs => .alt r (altList rs)

/-- `arrayToRegexp` over string patterns: compile each sub-pattern with the
one shared keys list, and join the parts in a non-capturing alternation. -/
def arrayToRegexpRe (pat : String → Re) (paths : List String) (keys : List Key)
    (o : PathOptions) : Except ParseError (Re × List Key) :=
  (paths.foldlM (fun (acc : List Re × List Key) p =>
      (stringToRegexpRe pat p acc.2 o).map fun rk => (acc.1 ++ [rk.1], rk.2))
    (([] : List Re), keys)).map
    fun acc => (Re.ncg (altList acc.1), acc.2)

/-- The default interpretation of pattern-fragment strings: the default
parameter pattern for the default delimiter set becomes a lazy plus over
the negated delimiter class.  (Custom inline fragments are outside the
dialect the claims exercise.) -/
def patInterp : String → Re := fun p =>
  if p = "[^" ++ escapeString "/#?" ++ "]+?" then .plusLazy (.cls ("/#?".data) true)
  else .cls [] false

/-- The exported `match` function of match.ts, for a single string
pattern: compile to (regex, keys), then wrap with the matcher. -/
def matchModel (pat : String → Re) (s : String) (o : PathOptions) :
    Except ParseError (String → Option MatchRes) :=
  (stringToRegexpRe pat s [] o).map fun rk =>
    regexpToFunction rk.1 (flagCI o) rk.2 o.decode

/-- Modelled from the spec: the documented per-Key route-fragment shapes of
§4.4 (empty prefix and suffix gives a direct capture, repeated-with-
separator for `+`/`*` with an extra `?` exactly when the modifier is `*`,
plain wrapped capture for `?`/no modifier, and a non-capturing group for a
Key with empty pattern).  The spec-side counterpart of `keyFragment` for
the refinement check, written with the default identity encode. -/
def specKeyFragment (k : Key) : String :=
  if k.pattern = "" then
    "(?:" ++ escapeString k.pre ++ escapeString k.suffix ++ ")" ++ k.modifier
  else if k.pre = "" ∧ k.suffix = "" then
    "(" ++ k.pattern ++ ")" ++ k.modifier
  else if k.modifier = "+" ∨ k.modifier = "*" then
    "(?:" ++ escapeString k.pre ++ "((?:" ++ k.pattern ++ ")(?:" ++
      escapeString k.suffix ++ escapeString k.pre ++ "(?:" ++ k.pattern ++
      "))*)" ++ escapeString k.suffix ++ ")" ++
      (if k.modifier = "*" then "?" else "")
  else
    "(?:" ++ escapeString k.pre ++ "(" ++ k.pattern ++ ")" ++
      escapeString k.suffix ++ ")" ++ k.modifier

/-- Does lexing succeed with every token carrying a defined value? -/
def lexWF (s : String) : Bool :=
  match lexString s with
  | .ok ts => ts.all fun t => t.value.isSome
  | .error _ => false

/-- Is a parse outcome the positioned `UnbalancedPattern` error? -/
def isUnbalancedErr : Except ParseError (List Token) → Bool
  | .error (.lex (.unbalancedPattern _)) => true
  | _ => false

/-- The Keys the regex compiler appends to the keys list: exactly the Key
tokens with a non-empty pattern, in order of appearance. -/
def emittedKeys (tokens : List Token) : List Key :=
  tokens.filterMap fun t =>
    match t with
    | .str _ => none
    | .key k => if k.pattern ≠ "" then some k else none

/-- The delimiter characters of the default `"/#?"` class. -/
def delims : List Char := ['/', '#', '?']

/-- Length of the maximal leading run of non-delimiter characters. -/
def freeCount : List Char → Nat
  | [] => 0
  | c :: cs => if c ∈ delims then 0 else freeCount cs + 1

/-- `freeCount` from a position. -/
def freeLen (s : List Char) (pos : Nat) : Nat := freeCount (s.drop pos)

/-- The (name, decoded value) pairs of the defined captures, in capture
order — the sequence of assignments the params loop performs. -/
def definedPairs (decode : String → Key → String) (keys : List Key) (caps : Caps) :
    List (String × MVal) :=
  (keys.zip caps).filterMap fun kc =>
    kc.2.map fun v => (nameStr kc.1.name, decodeVal decode kc.1 v)

/-- Property read on a params object: the value bound to a name (the
first binding in the association list — `setParam` keeps names unique). -/
def lookupName (n : String) : List (String × MVal) → Option MVal
  | [] => none
  | p :: ps => if p.1 = n then some p.2 else lookupName n ps

/- Theorems.  First, unfolding equations for the fueled engine: at fuel
`f + 1` every construct unfolds to its subterms at fuel `f + 1`, except
the quantifier-loop steps, which recurse at fuel `f`. -/

theorem run_seq (f : Nat) (a b : Re) (s : List Char) (ci : Bool) (pos : Nat) (caps : Caps) :
    run (f + 1) (.seq a b) s ci pos caps =
      (run (f + 1) a s ci pos caps).flatMap fun pc => run (f + 1) b s ci pc.1 pc.2 := rfl

theorem run_alt (f : Nat) (a b : Re) (s : List Char) (ci : Bool) (pos : Nat) (caps : Caps) :
    run (f + 1) (.alt a b) s ci pos caps =
      run (f + 1) a s ci pos caps ++ run (f + 1) b s ci pos caps := rfl

theorem run_ncg (f : Nat) (r : Re) (s : List Char) (ci : Bool) (pos : Nat) (caps : Caps) :
    run (f + 1) (.ncg r) s ci pos caps = run (f + 1) r s ci pos caps := rfl

theorem run_grp (f : Nat) (idx : Nat) (r : Re) (s : List Char) (ci : Bool) (pos : Nat)
    (caps : Caps) :
    run (f + 1) (.grp idx r) s ci pos caps =
      (run (f + 1) r s ci pos caps).map fun pc =>
        (pc.1, pc.2.set idx (some (String.mk ((s.drop pos).take (pc.1 - pos))))) := rfl

theorem run_quest (f : Nat) (r : Re) (s : List Char) (ci : Bool) (pos : Nat) (caps : Caps) :
    run (f + 1) (.quest r) s ci pos caps =
      run (f + 1) r s ci pos caps ++ [(pos, caps)] := rfl

theorem run_eps (f : Nat) (s : List Char) (ci : Bool) (pos : Nat) (caps : Caps) :
    run (f + 1) .eps s ci pos caps = [(pos, caps)] := rfl

theorem run_bol (f : Nat) (s : List Char) (ci : Bool) (pos : Nat) (caps : Caps) :
    run (f + 1) .bol s ci pos caps = if pos = 0 then [(pos, caps)] else [] := rfl

theorem run_eol (f : Nat) (s : List Char) (ci : Bool) (pos : Nat) (caps : Caps) :
    run (f + 1) .eol s ci pos caps = if pos = s.length then [(pos, caps)] else [] := rfl

theorem run_lit (f : Nat) (c : Char) (s : List Char) (ci : Bool) (pos : Nat) (caps : Caps) :
    run (f + 1) (.lit c) s ci pos caps =
      match s.get? pos with
      | some d => if canon ci d = canon ci c then [(pos + 1, caps)] else []
      | none => [] := rfl

theorem run_cls (f : Nat) (cs : List Char) (neg : Bool) (s : List Char) (ci : Bool)
    (pos : Nat) (caps : Caps) :
    run (f + 1) (.cls cs neg) s ci pos caps =
      match s.get? pos with
      | some d => if clsMatch ci cs neg d then [(pos + 1, caps)] else []
      | none => [] := rfl

theorem run_starLazy (f : Nat) (r : Re) (s : List Char) (ci : Bool) (pos : Nat) (caps : Caps) :
    run (f + 1) (.starLazy r) s ci pos caps =
      (pos, caps) ::
        (((run (f + 1) r s ci pos caps).filter fun pc => pos < pc.1 && pc.1 ≤ s.length).flatMap
          fun pc => run f (.starLazy r) s ci pc.1 pc.2) := rfl

theorem run_plusLazy (f : Nat) (r : Re) (s : List Char) (ci : Bool) (pos : Nat) (caps : Caps) :
    run (f + 1) (.plusLazy r) s ci pos caps =
      (run (f + 1) r s ci pos caps).flatMap fun pc =>
        if pos < pc.1 && pc.1 ≤ s.length then run f (.starLazy r) s ci pc.1 pc.2
        else [(pc.1, pc.2)] := rfl

set_option maxHeartbeats 4000000

/-- C2 counterexample: compiling the pattern string "/:(" (default
options) does not raise UnbalancedPattern at any offset; the lexer
reports MissingParameterName at offset 1 first, because the `:` is
followed by no identifier character. -/
theorem c2_counterexample :
    isUnbalancedErr (parse "/:(" {}) = false ∧
      parse "/:(" {} = .error (.lex (.missingParameterName 1)) := by
  exact ⟨by decide, by decide⟩

/-- C2 amended: compiling the pattern string "/:(" fails, for every choice
of options, with the MissingParameterName error at source offset 1 (the
UnbalancedPattern error is reserved for an opened inline pattern that
never balances, e.g. "/(", and is never reached here because the lexer
rejects the empty parameter name before scanning the `(`). -/
theorem c2_missing_name (o : PathOptions) :
    parse "/:(" o = .error (.lex (.missingParameterName 1)) := rfl

/-- C5 counterexample: lexing a string whose final character is an
unescaped backslash does not yield a defined-valued token sequence — the
escaped-character token at offset 2 carries the undefined value (`none`),
and the end token's index 4 even lies past the end of the 3-character
input, reflecting the two-position advance of the JavaScript lexer. -/
theorem c5_counterexample :
    lexWF "ab\\" = false ∧
      lexString "ab\\" = .ok [⟨.CHAR, 0, some "a"⟩, ⟨.CHAR, 1, some "b"⟩,
        ⟨.ESCAPED_CHAR, 2, none⟩, ⟨.END, 4, some ""⟩] := by
  exact ⟨by decide, by decide⟩

/-- C5 amended: on a backslash the lexer emits exactly one
escaped-character token at the current index, carrying the immediately
following character when one exists and the undefined value (`none`)
otherwise, and always continues two positions further without error; the
carried value is undefined exactly when the backslash is the final
character. -/
theorem c5_escape_step (f : Nat) (rest : List Char) (i : Nat) (acc : List LexToken) :
    lexAux (f + 1) ('\\' :: rest) i acc =
      lexAux f (rest.drop 1) (i + 2)
        (acc ++ [⟨.ESCAPED_CHAR, i, rest.head?.map String.singleton⟩]) ∧
      (rest.head?.map String.singleton = none ↔ rest = []) := by
  refine ⟨rfl, ?_⟩
  cases rest <;> simp

/-- C3 counterexample: the matcher compiled from the pattern string
":foo" with default options applied to the path "/bar" is a non-match
(`none`, the model of `false`): the parameter pattern excludes the
delimiter `/` and the pattern has no literal to consume it. -/
theorem c3_counterexample :
    (matchModel patInterp ":foo" {}).map (fun f => f "/bar") = .ok none := by decide

/-- C3 amended: the matcher compiled from ":foo" with default options
matches the path "bar" (no leading delimiter), yielding
`params = { foo := "bar" }` and `path = "bar"`; the path "/bar" is a
non-match. -/
theorem c3_match_bar :
    (matchModel patInterp ":foo" {}).map (fun f => f "bar") =
      .ok (some { path := "bar", index := 0, params := [("foo", .one "bar")] }) := by decide

/-- C4: evaluation at the failing input.  For the Key parsed from
"{-:foo.}+" (prefix "-", suffix ".", modifier "+"), the regex compiler
joins consecutive repetitions inside the single capture with
suffix + prefix = ".-", but the matcher re-splits the capture on
prefix + suffix = "-.".  Building from `{foo: ["a","b"]}` yields
"-a.-b.", whose capture "a.-b" contains no "-.", so matching returns
`foo = ["a.-b"]` instead of recovering `["a", "b"]` — which splitting on
the actual join delimiter ".-" would produce. -/
theorem c4_split_mismatch :
    (compileModel patInterp "{-:foo.}+" {}).map
        (fun f => f (some fun n => if n = "foo" then some (.arr ["a", "b"]) else none)) =
      .ok (.ok "-a.-b.") ∧
    (matchModel patInterp "{-:foo.}+" {}).map (fun f => f "-a.-b.") =
      .ok (some { path := "-a.-b.", index := 0, params := [("foo", .many ["a.-b"])] }) ∧
    jsSplit "a.-b" ("." ++ "-") = ["a", "b"] ∧
    jsSplit "a.-b" ("-" ++ ".") = ["a.-b"] := by
  exact ⟨by decide, by decide, by decide, by decide⟩

/-- C7 counterexample: a compiled builder given an empty sequence for a
Key with modifier "?" does not let the Key contribute nothing — it fails
with NotRepeatable, because the array check precedes the emptiness
check and "?" is not a repeat modifier. -/
theorem c7_counterexample :
    (compileModel patInterp ":a?" {}).map
        (fun f => f (some fun n => if n = "a" then some (.arr []) else none)) =
      .ok (.error (.notRepeatable "a")) := by decide

/-- C8: the matcher compiled from "/user" with `end:false` and otherwise
default options matches the prefix "/user" of "/user/123" at index 0
with no parameters, and rejects "/username", whose character after the
matched prefix is not a delimiter. -/
theorem c8_prefix_match :
    (matchModel patInterp "/user" { endOpt := some false }).map
        (fun f => (f "/user/123", f "/username")) =
      .ok (some { path := "/user", index := 0, params := [] }, none) := by decide

/-- C1 counterexample: the round-trip fails for the pattern ":a:b",
which consists only of named required parameters (no modifier, no custom
sub-pattern), at the assignment a = "ab", b = "cd": both values satisfy
their Keys' pattern (the build validates and succeeds, producing "abcd"),
but matching "abcd" back yields a = "a", b = "bcd" — the lazy default
patterns of two adjacent parameters split the text at the earliest
boundary, not at the original one. -/
theorem c1_counterexample :
    (compileModel patInterp ":a:b" {}).map
        (fun f => f (some fun n =>
          if n = "a" then some (.s "ab") else if n = "b" then some (.s "cd") else none)) =
      .ok (.ok "abcd") ∧
    (matchModel patInterp ":a:b" {}).map (fun f => f "abcd") =
      .ok (some { path := "abcd", index := 0,
                  params := [("a", .one "a"), ("b", .one "bcd")] }) ∧
    ([("a", MVal.one "a"), ("b", MVal.one "bcd")] ≠
      [("a", MVal.one "ab"), ("b", MVal.one "cd")]) := by
  exact ⟨by decide, by decide, by decide⟩

theorem escChars_ne_nil (c : Char) : escChars c ≠ [] := by
  unfold escChars; split <;> simp

theorem escapeString_eq_empty_iff (s : String) : escapeString s = "" ↔ s = "" := by
  constructor
  · intro h
    have hd : (escapeString s).data = [] := by rw [h]
    simp only [escapeString] at hd
    rw [List.flatMap_eq_nil_iff] at hd
    cases hs : s.data with
    | nil => cases s with | mk d => simpa using congrArg String.mk hs
    | cons c cs => exact absurd (hd c (by rw [hs]; simp)) (escChars_ne_nil c)
  · intro h; rw [h]; rfl

theorem numGroups_lits (cs : List Char) : numGroups (lits cs) = 0 := by
  induction cs with
  | nil => rfl
  | cons c cs ih => simp [lits, numGroups, ih]

theorem numGroups_applyMod (m : String) (r : Re) : numGroups (applyMod m r) = numGroups r := by
  unfold applyMod; split_ifs <;> rfl

theorem groupIdxs_lits (cs : List Char) : groupIdxs (lits cs) = [] := by
  induction cs with
  | nil => rfl
  | cons c cs ih => simp [lits, groupIdxs, ih]

theorem groupIdxs_applyMod (m : String) (r : Re) : groupIdxs (applyMod m r) = groupIdxs r := by
  unfold applyMod; split_ifs <;> rfl

/-- C6: for every Key the regex compiler emits exactly the documented
fragment shape (default identity encode): empty prefix and suffix give
`(pattern)<modifier>`; non-empty prefix or suffix with modifier `+`/`*`
gives `(?:prefix((?:pattern)(?:suffixprefix(?:pattern))*)suffix)` followed
by `?` exactly when the modifier is `*`; non-empty prefix/suffix with
modifier `?` or none gives `(?:prefix(pattern)suffix)<modifier>`; and a
Key with empty pattern gives the non-capturing `(?:prefixsuffix)<modifier>`,
whose fragment contributes no capture group. -/
theorem c6_fragment_shape (k : Key) (pat : String → Re) (enc : String → String) (idx : Nat) :
    keyFragment (fun x => x) k = specKeyFragment k ∧
    (k.pattern = "" → numGroups (keyFragmentRe pat enc idx k) = 0) := by
  constructor
  · unfold keyFragment specKeyFragment
    by_cases hp : k.pattern = ""
    · simp [hp]
    · by_cases hpre : k.pre = "" <;> by_cases hsuf : k.suffix = "" <;>
        simp [hp, hpre, hsuf, escapeString_eq_empty_iff]
  · intro hp
    unfold keyFragmentRe
    simp [hp, numGroups_applyMod, numGroups, numGroups_lits, litsOf]

/-- Witness for `c6_fragment_shape` at a concrete empty-pattern Key. -/
theorem c6_fragment_shape_witness :
    keyFragment (fun x => x)
        { name := .str "k", pre := "/", suffix := "", pattern := "", modifier := "?" } =
      specKeyFragment
        { name := .str "k", pre := "/", suffix := "", pattern := "", modifier := "?" } ∧
    numGroups (keyFragmentRe patInterp (fun x => x) 0
        { name := .str "k", pre := "/", suffix := "", pattern := "", modifier := "?" }) = 0 :=
  ⟨(c6_fragment_shape _ patInterp (fun x => x) 0).1,
   (c6_fragment_shape _ patInterp (fun x => x) 0).2 rfl⟩

/-- C7 amended: the per-Key behavior of a compiled builder.  A sequence
value fails with NotRepeatable unless the modifier is `*`/`+` (empty
sequences included); an empty sequence contributes nothing under `*` and
fails with EmptyRepeatable under `+`; a missing value contributes nothing
under `?`/`*` and otherwise fails with ExpectedStringOrArray naming the
required type ("an array" for repeat modifiers, "a string" otherwise).
Every failure is an `error`, so no result string is produced. -/
theorem c7_builder_cases (pat : String → Re) (o : PathOptions)
    (d : String → Option ParamValue) (path : String) (k : Key) :
    (∀ vs, d (nameStr k.name) = some (.arr vs) →
        ¬(k.modifier = "*" ∨ k.modifier = "+") →
        tokenStep pat o (some d) path (.key k) = .error (.notRepeatable (nameStr k.name))) ∧
    (d (nameStr k.name) = some (.arr []) → k.modifier = "*" →
        tokenStep pat o (some d) path (.key k) = .ok path) ∧
    (d (nameStr k.name) = some (.arr []) → k.modifier = "+" →
        tokenStep pat o (some d) path (.key k) = .error (.emptyRepeatable (nameStr k.name))) ∧
    (d (nameStr k.name) = none → (k.modifier = "?" ∨ k.modifier = "*") →
        tokenStep pat o (some d) path (.key k) = .ok path) ∧
    (d (nameStr k.name) = none → ¬(k.modifier = "?" ∨ k.modifier = "*") →
        tokenStep pat o (some d) path (.key k) =
          .error (.expectedType (nameStr k.name)
            (if k.modifier = "*" ∨ k.modifier = "+" then "an array" else "a string"))) := by
  refine ⟨?_, ?_, ?_, ?_, ?_⟩
  · intro vs hv hm
    simp [tokenStep, hv, hm]
  · intro hv hm
    simp [tokenStep, hv, hm]
  · intro hv hm
    simp [tokenStep, hv, hm]
  · intro hv hm
    simp [tokenStep, hv, hm]
  · intro hv hm
    simp [tokenStep, hv, hm]

/-- Witness for `c7_builder_cases`: an empty sequence under modifier `?`
raises NotRepeatable. -/
theorem c7_builder_cases_witness :
    tokenStep patInterp {} (some fun _ => some (.arr [])) ""
        (.key { name := .str "a", pre := "", suffix := "", pattern := "x", modifier := "?" }) =
      .error (.notRepeatable "a") :=
  (c7_builder_cases patInterp {} (fun _ => some (.arr [])) ""
      { name := .str "a", pre := "", suffix := "", pattern := "x", modifier := "?" }).1
    [] rfl (by decide)

theorem setParam_map_fst (ps : List (String × MVal)) (n : String) (v : MVal) :
    (setParam ps n v).map Prod.fst =
      if ps.any (·.1 = n) then ps.map Prod.fst else ps.map Prod.fst ++ [n] := by
  unfold setParam
  split
  · rw [List.map_map]
    refine List.map_congr_left ?_
    intro p _
    by_cases h : p.1 = n <;> simp [h]
  · simp

theorem setParam_lookupName_self (ps : List (String × MVal)) (n : String) (v : MVal) :
    lookupName n (setParam ps n v) = some v := by
  unfold setParam
  split
  · rename_i h
    simp only [List.any_eq_true, decide_eq_true_eq] at h
    obtain ⟨p0, hp0, hp0n⟩ := h
    induction ps with
    | nil => simp at hp0
    | cons q ps ih =>
      by_cases hq : q.1 = n
      · simp [lookupName, hq]
      · simp only [List.map_cons, if_neg hq]
        rw [lookupName, if_neg hq]
        rcases List.mem_cons.mp hp0 with h1 | h2
        · exact absurd (h1 ▸ hp0n) hq
        · exact ih h2
  · induction ps with
    | nil => simp [lookupName]
    | cons q ps ih =>
      rename_i h
      simp only [List.any_cons, Bool.or_eq_true, decide_eq_true_eq] at h
      push_neg at h
      rw [List.cons_append, lookupName, if_neg h.1]
      exact ih (by simpa using h.2)

theorem lookupName_map_set (ps : List (String × MVal)) (n m : String) (v : MVal)
    (h : m ≠ n) :
    lookupName m (ps.map fun p => if p.1 = n then (n, v) else p) = lookupName m ps := by
  induction ps with
  | nil => rfl
  | cons q ps ih =>
    by_cases hq : q.1 = n
    · rw [List.map_cons, if_pos hq, lookupName, lookupName, hq]
      rw [if_neg (fun hc : n = m => h hc.symm)]
      rw [if_neg (fun hc : n = m => h hc.symm)]
      exact ih
    · rw [List.map_cons, if_neg hq, lookupName, lookupName]
      by_cases hm : q.1 = m
      · simp [hm]
      · rw [if_neg hm, if_neg hm]
        exact ih

theorem lookupName_append_single (ps : List (String × MVal)) (n m : String) (v : MVal)
    (h : m ≠ n) : lookupName m (ps ++ [(n, v)]) = lookupName m ps := by
  induction ps with
  | nil =>
    rw [List.nil_append, lookupName, lookupName]
    rw [if_neg (fun hc : n = m => h hc.symm)]
    rfl
  | cons q ps ih =>
    rw [List.cons_append, lookupName, lookupName]
    by_cases hm : q.1 = m
    · simp [hm]
    · rw [if_neg hm, if_neg hm]
      exact ih

theorem setParam_lookupName_other (ps : List (String × MVal)) (n m : String) (v : MVal)
    (h : m ≠ n) : lookupName m (setParam ps n v) = lookupName m ps := by
  unfold setParam
  split
  · exact lookupName_map_set ps n m v h
  · exact lookupName_append_single ps n m v h

theorem buildParams_eq_foldl (decode : String → Key → String) (keys : List Key) (caps : Caps) :
    buildParams decode keys caps =
      (definedPairs decode keys caps).foldl (fun ps p => setParam ps p.1 p.2) [] := by
  unfold buildParams definedPairs
  generalize keys.zip caps = l
  suffices h : ∀ (ps : List (String × MVal)),
      l.foldl (fun ps kc =>
        match kc.2 with
        | none => ps
        | some v => setParam ps (nameStr kc.1.name) (decodeVal decode kc.1 v)) ps =
      (l.filterMap fun kc =>
        kc.2.map fun v => (nameStr kc.1.name, decodeVal decode kc.1 v)).foldl
        (fun ps p => setParam ps p.1 p.2) ps from h []
  induction l with
  | nil => intro ps; rfl
  | cons kc l ih =>
    intro ps
    cases hv : kc.2 with
    | none => simp [hv, ih]
    | some v => simp [hv, ih]

theorem setFold_mem_fst (l : List (String × MVal)) (n : String) :
    (n ∈ (l.foldl (fun ps p => setParam ps p.1 p.2) []).map Prod.fst ↔
      n ∈ l.map Prod.fst) := by
  induction l using List.reverseRecOn generalizing n with
  | nil => simp
  | append_singleton l p ih =>
    rw [List.foldl_append, List.foldl_cons, List.foldl_nil]
    rw [setParam_map_fst]
    by_cases ha : (l.foldl (fun ps p => setParam ps p.1 p.2) []).any (·.1 = p.1)
    · rw [if_pos ha]
      have hp1 : p.1 ∈ l.map Prod.fst := by
        rw [← ih]
        simpa [List.any_eq_true, eq_comm (a := p.1)] using ha
      rw [ih]
      simp only [List.map_append, List.map_cons, List.map_nil, List.mem_append,
        List.mem_cons, List.not_mem_nil, or_false]
      constructor
      · exact Or.inl
      · rintro (h | h)
        · exact h
        · exact h ▸ hp1
    · rw [if_neg ha]
      simp only [List.map_append, List.map_cons, List.map_nil, List.mem_append,
        List.mem_cons, List.not_mem_nil, or_false]
      rw [ih]

theorem setFold_nodup_fst (l : List (String × MVal)) :
    ((l.foldl (fun ps p => setParam ps p.1 p.2) []).map Prod.fst).Nodup := by
  induction l using List.reverseRecOn with
  | nil => simp
  | append_singleton l p ih =>
    rw [List.foldl_append, List.foldl_cons, List.foldl_nil]
    rw [setParam_map_fst]
    by_cases ha : (l.foldl (fun ps p => setParam ps p.1 p.2) []).any (·.1 = p.1)
    · rw [if_pos ha]; exact ih
    · rw [if_neg ha]
      have hp1 : p.1 ∉ ((l.foldl (fun ps p => setParam ps p.1 p.2) []).map Prod.fst) := by
        intro hc
        exact ha (by simpa [List.any_eq_true, eq_comm (a := p.1)] using hc)
      rw [List.nodup_append]
      refine ⟨ih, List.nodup_singleton _, ?_⟩
      intro x hx
      simp only [List.mem_singleton]
      intro hxe
      exact hp1 (hxe ▸ hx)

theorem setFold_lookupName (l : List (String × MVal)) (n : String) :
    lookupName n (l.foldl (fun ps p => setParam ps p.1 p.2) []) =
      lookupName n l.reverse := by
  induction l using List.reverseRecOn generalizing n with
  | nil => rfl
  | append_singleton l p ih =>
    rw [List.foldl_append, List.foldl_cons, List.foldl_nil]
    rw [List.reverse_append]
    show lookupName n (setParam (List.foldl (fun ps p => setParam ps p.1 p.2) [] l) p.1 p.2) =
      lookupName n (p :: l.reverse)
    by_cases hn : n = p.1
    · rw [hn, setParam_lookupName_self]
      rw [lookupName, if_pos rfl]
    · rw [setParam_lookupName_other _ _ _ _ hn, ih]
      rw [lookupName, if_neg (fun hc => hn hc.symm)]

/-- C10: for every successful match the params object binds exactly the
stringified names of the defined captures and nothing else — the
association-list model reflects `Object.create(null)` (no inherited or
prototype properties, so a name like "constructor" is ordinary data) —
each name exactly once; and when two Keys share a name, the binding holds
the decoded value of the later (rightmost) defined capture, because a
later assignment overwrites an earlier one. -/
theorem c10_params (decode : String → Key → String) (keys : List Key) (caps : Caps) :
    ((buildParams decode keys caps).map Prod.fst).Nodup ∧
    (∀ n, n ∈ (buildParams decode keys caps).map Prod.fst ↔
        n ∈ (definedPairs decode keys caps).map Prod.fst) ∧
    (∀ n, lookupName n (buildParams decode keys caps) =
        lookupName n (definedPairs decode keys caps).reverse) := by
  simp only [buildParams_eq_foldl]
  exact ⟨setFold_nodup_fst _, fun n => setFold_mem_fst _ n, fun n => setFold_lookupName _ n⟩

theorem groupIdxs_litsOf (s : String) : groupIdxs (litsOf s) = [] :=
  groupIdxs_lits s.data

theorem groupIdxs_keyFragmentRe (pat : String → Re) (enc : String → String) (idx : Nat)
    (k : Key) (hpat : groupIdxs (pat k.pattern) = []) :
    groupIdxs (keyFragmentRe pat enc idx k) = if k.pattern ≠ "" then [idx] else [] := by
  unfold keyFragmentRe
  by_cases hp : k.pattern = ""
  · simp [hp, groupIdxs_applyMod, groupIdxs, groupIdxs_litsOf]
  · by_cases hps : escapeString (enc k.pre) ≠ "" ∨ escapeString (enc k.suffix) ≠ ""
    · by_cases hm : k.modifier = "+" ∨ k.modifier = "*"
      · rcases hm with hm | hm <;>
          simp [hp, hps, hm, groupIdxs, groupIdxs_litsOf, hpat, groupIdxs_applyMod]
      · simp [hp, hps, hm, groupIdxs, groupIdxs_litsOf, hpat, groupIdxs_applyMod]
    · simp [hp, hps, groupIdxs, hpat, groupIdxs_applyMod]

theorem groupIdxs_seqList (l : List Re) :
    groupIdxs (seqList l) = l.flatMap groupIdxs := by
  induction l with
  | nil => rfl
  | cons r rs ih => simp [seqList, groupIdxs, ih]

theorem groupIdxs_altList (l : List Re) :
    groupIdxs (altList l) = l.flatMap groupIdxs := by
  induction l with
  | nil => rfl
  | cons r rs ih =>
    cases rs with
    | nil => simp [altList, groupIdxs]
    | cons r2 rs2 => simp only [altList, groupIdxs, ih]; simp

theorem ttr_fold (pat : String → Re) (enc : String → String)
    (hpat : ∀ p, groupIdxs (pat p) = []) :
    ∀ (tokens : List Token) (frags : List Re) (keys : List Key),
    (tokens.foldl (fun (acc : List Re × List Key) t =>
      match t with
      | .str s => (acc.1 ++ [litsOf (enc s)], acc.2)
      | .key token =>
        (acc.1 ++ [keyFragmentRe pat enc acc.2.length token],
         if token.pattern ≠ "" then acc.2 ++ [token] else acc.2)) (frags, keys)).2 =
      keys ++ emittedKeys tokens ∧
    ((tokens.foldl (fun (acc : List Re × List Key) t =>
      match t with
      | .str s => (acc.1 ++ [litsOf (enc s)], acc.2)
      | .key token =>
        (acc.1 ++ [keyFragmentRe pat enc acc.2.length token],
         if token.pattern ≠ "" then acc.2 ++ [token] else acc.2)) (frags, keys)).1).flatMap
        groupIdxs =
      frags.flatMap groupIdxs ++ List.range' keys.length (emittedKeys tokens).length := by
  intro tokens
  induction tokens with
  | nil => intro frags keys; simp [emittedKeys]
  | cons t ts ih =>
    intro frags keys
    cases t with
    | str s =>
      have he : emittedKeys (Token.str s :: ts) = emittedKeys ts := by
        simp [emittedKeys]
      rw [List.foldl_cons]
      refine ⟨((ih _ _).1.trans (by rw [he])), ?_⟩
      rw [(ih _ _).2, he]
      simp [groupIdxs_litsOf]
    | key k =>
      by_cases hp : k.pattern = ""
      · have he : emittedKeys (Token.key k :: ts) = emittedKeys ts := by
          simp [emittedKeys, hp]
        rw [List.foldl_cons]
        simp only [hp, ne_eq, not_true_eq_false, if_false]
        refine ⟨((ih _ _).1.trans (by rw [he])), ?_⟩
        rw [(ih _ _).2, he]
        have hg : groupIdxs (keyFragmentRe pat enc keys.length k) = [] := by
          rw [groupIdxs_keyFragmentRe pat enc _ k (hpat _)]
          simp [hp]
        simp [hg]
      · have he : emittedKeys (Token.key k :: ts) = k :: emittedKeys ts := by
          simp [emittedKeys, hp]
        rw [List.foldl_cons]
        simp only [hp, ne_eq, not_false_eq_true, if_true]
        constructor
        · rw [(ih _ _).1, he]
          simp
        · rw [(ih _ _).2, he]
          have hg : groupIdxs (keyFragmentRe pat enc keys.length k) = [keys.length] := by
            rw [groupIdxs_keyFragmentRe pat enc _ k (hpat _)]
            simp [hp]
          simp only [List.flatMap_append, List.flatMap_cons, List.flatMap_nil,
            List.append_nil, hg, List.length_cons, List.length_append,
            List.length_singleton]
          rw [List.append_assoc, List.range'_succ]
          simp

theorem tokensToRegexpRe_spec (pat : String → Re) (hpat : ∀ p, groupIdxs (pat p) = [])
    (tokens : List Token) (keys : List Key) (o : PathOptions) :
    (tokensToRegexpRe pat tokens keys o).2 = keys ++ emittedKeys tokens ∧
    groupIdxs (tokensToRegexpRe pat tokens keys o).1 =
      List.range' keys.length (emittedKeys tokens).length := by
  unfold tokensToRegexpRe
  simp only
  constructor
  · exact (ttr_fold pat o.encode hpat tokens [] keys).1
  · rw [groupIdxs_seqList]
    simp only [List.flatMap_append]
    rw [(ttr_fold pat o.encode hpat tokens [] keys).2]
    have h1 : ((if o.start.getD true then [Re.bol] else []).flatMap groupIdxs) = [] := by
      split <;> simp [groupIdxs]
    have h2 : (((if o.endOpt.getD true then
        (if ¬o.strict.getD false then [Re.quest (.cls (jsOr o.delimiter "/#?").data false)] else []) ++
          [if ¬endsWithTruthy o then Re.eol
           else Re.look (.alt (.cls (o.endsWith.getD "").data false) .eol)]
      else
        (if ¬o.strict.getD false then
          [Re.quest (.ncg (.seq (.cls (jsOr o.delimiter "/#?").data false)
            (.look (.alt (.cls (o.endsWith.getD "").data false) .eol))))] else []) ++
        (if ¬isEndDelimited tokens ("[" ++ escapeString (jsOr o.delimiter "/#?") ++ "]") then
          [Re.look (.alt (.cls (jsOr o.delimiter "/#?").data false)
            (.alt (.cls (o.endsWith.getD "").data false) .eol))] else [])) : List Re).flatMap
        groupIdxs) = [] := by
      split_ifs <;> simp [groupIdxs]
    rw [h1, h2]
    simp

theorem stringToRegexpRe_spec (pat : String → Re) (hpat : ∀ p, groupIdxs (pat p) = [])
    (s : String) (keys : List Key) (o : PathOptions) (re : Re) (keysOut : List Key)
    (h : stringToRegexpRe pat s keys o = .ok (re, keysOut)) :
    ∃ app, keysOut = keys ++ app ∧ groupIdxs re = List.range' keys.length app.length := by
  unfold stringToRegexpRe at h
  cases hp : parse s o with
  | error e => rw [hp] at h; simp [Except.map] at h
  | ok tokens =>
    rw [hp] at h
    simp only [Except.map, Except.ok.injEq] at h
    have h1 : (tokensToRegexpRe pat tokens keys o).1 = re := by rw [h]
    have h2 : (tokensToRegexpRe pat tokens keys o).2 = keysOut := by rw [h]
    refine ⟨emittedKeys tokens, ?_, ?_⟩
    · rw [← h2, (tokensToRegexpRe_spec pat hpat tokens keys o).1]
    · rw [← h1, (tokensToRegexpRe_spec pat hpat tokens keys o).2]

theorem arrayFold_spec (pat : String → Re) (hpat : ∀ p, groupIdxs (pat p) = [])
    (o : PathOptions) :
    ∀ (paths : List String) (accF : List Re) (accK : List Key) (fr : List Re)
      (kout : List Key),
    (paths.foldlM (fun (acc : List Re × List Key) p =>
        (stringToRegexpRe pat p acc.2 o).map fun rk => (acc.1 ++ [rk.1], rk.2))
      (accF, accK)) = .ok (fr, kout) →
    ∃ app, kout = accK ++ app ∧
      fr.flatMap groupIdxs = accF.flatMap groupIdxs ++ List.range' accK.length app.length := by
  intro paths
  induction paths with
  | nil =>
    intro accF accK fr kout h
    rw [List.foldlM_nil] at h
    have h2 : (Except.ok (accF, accK) : Except ParseError (List Re × List Key)) =
        .ok (fr, kout) := h
    simp only [Except.ok.injEq, Prod.mk.injEq] at h2
    refine ⟨[], ?_, ?_⟩
    · rw [← h2.2]; simp
    · rw [← h2.1]; simp
  | cons p ps ih =>
    intro accF accK fr kout h
    rw [List.foldlM_cons] at h
    cases hs : stringToRegexpRe pat p accK o with
    | error e =>
      rw [hs] at h
      exact absurd h (by intro hc; cases hc)
    | ok rk =>
      rw [hs] at h
      simp only [Except.map, Except.bind] at h
      obtain ⟨app1, hk1, hg1⟩ := stringToRegexpRe_spec pat hpat p accK o rk.1 rk.2 (by rw [hs])
      obtain ⟨app2, hk2, hg2⟩ := ih (accF ++ [rk.1]) rk.2 fr kout h
      refine ⟨app1 ++ app2, ?_, ?_⟩
      · rw [hk2, hk1, List.append_assoc]
      · rw [hg2, hk1]
        simp only [List.flatMap_append, List.flatMap_cons, List.flatMap_nil, List.append_nil]
        rw [hg1]
        rw [List.append_assoc, List.length_append, List.length_append]
        congr 1
        have hra := List.range'_append accK.length app1.length app2.length 1
        simp only [one_mul] at hra
        rw [Nat.add_comm app1.length app2.length]
        exact hra

/-- C9: positional correspondence.  For every token list (hence every
parsed pattern string) and every list of pattern strings compiled with a
shared keys list, the regex compiler appends a Key exactly when it emits
a capturing group — precisely the Key tokens with non-empty pattern, in
left-to-right order across the whole input — and the capture groups of
the composed regex are numbered consecutively from the incoming keys-list
length, so the i-th capturing group (1-indexed, i.e. group number i-1)
corresponds to keys[i-1] as the matcher looks it up.  Keys with empty
pattern contribute neither a capture group nor a keys entry.  `hpat`
states that pattern fragments contain no capturing group, which the lexer
guarantees by rejecting capturing groups inside inline patterns. -/
theorem c9_positional (pat : String → Re) (hpat : ∀ p, groupIdxs (pat p) = [])
    (o : PathOptions) :
    (∀ tokens keys,
      (tokensToRegexpRe pat tokens keys o).2 = keys ++ emittedKeys tokens ∧
      groupIdxs (tokensToRegexpRe pat tokens keys o).1 =
        List.range' keys.length (emittedKeys tokens).length) ∧
    (∀ s keys re keysOut, stringToRegexpRe pat s keys o = .ok (re, keysOut) →
      ∃ app, keysOut = keys ++ app ∧
        groupIdxs re = List.range' keys.length app.length) ∧
    (∀ paths keys re keysOut, arrayToRegexpRe pat paths keys o = .ok (re, keysOut) →
      ∃ app, keysOut = keys ++ app ∧
        groupIdxs re = List.range' keys.length app.length) := by
  refine ⟨fun tokens keys => tokensToRegexpRe_spec pat hpat tokens keys o,
    fun s keys re keysOut h => stringToRegexpRe_spec pat hpat s keys o re keysOut h, ?_⟩
  intro paths keys re keysOut h
  unfold arrayToRegexpRe at h
  cases hf : (paths.foldlM (fun (acc : List Re × List Key) p =>
        (stringToRegexpRe pat p acc.2 o).map fun rk => (acc.1 ++ [rk.1], rk.2))
      (([] : List Re), keys)) with
  | error e => rw [hf] at h; simp [Except.map] at h
  | ok acc =>
    rw [hf] at h
    simp only [Except.map, Except.ok.injEq, Prod.mk.injEq] at h
    obtain ⟨h1, h2⟩ := h
    obtain ⟨app, hk, hg⟩ := arrayFold_spec pat hpat o paths [] keys acc.1 acc.2 (by rw [hf])
    refine ⟨app, by rw [← h2, hk], ?_⟩
    rw [← h1]
    show groupIdxs (altList acc.1) = _
    rw [groupIdxs_altList]
    simpa using hg

/-- Witness for `c9_positional` at a concrete token list. -/
theorem c9_positional_witness :
    (tokensToRegexpRe patInterp
        [Token.key { name := .str "a", pre := "/", suffix := "", pattern := "x", modifier := "" },
         Token.str "/y"] [] {}).2 =
      [] ++ emittedKeys
        [Token.key { name := .str "a", pre := "/", suffix := "", pattern := "x", modifier := "" },
         Token.str "/y"] ∧
    groupIdxs (tokensToRegexpRe patInterp
        [Token.key { name := .str "a", pre := "/", suffix := "", pattern := "x", modifier := "" },
         Token.str "/y"] [] {}).1 =
      List.range' ([] : List Key).length (emittedKeys
        [Token.key { name := .str "a", pre := "/", suffix := "", pattern := "x", modifier := "" },
         Token.str "/y"]).length :=
  (c9_positional patInterp (fun p => by unfold patInterp; split <;> rfl) {}).1
    [Token.key { name := .str "a", pre := "/", suffix := "", pattern := "x", modifier := "" },
     Token.str "/y"] []

theorem char_toNat_ofNat {n : Nat} (h : n.isValidChar) : (Char.ofNat n).toNat = n := by
  unfold Char.ofNat
  rw [dif_pos h]
  unfold Char.ofNatAux Char.toNat
  simp [UInt32.toNat]

theorem toUpper_eq_low (c d : Char) (hd : d.toNat < 65) : c.toUpper = d ↔ c = d := by
  have hun : c.toUpper =
      (if 97 ≤ c.toNat ∧ c.toNat ≤ 122 then Char.ofNat (c.toNat - 32) else c) := rfl
  constructor
  · intro h
    rw [hun] at h
    by_cases hc : 97 ≤ c.toNat ∧ c.toNat ≤ 122
    · rw [if_pos hc] at h
      exfalso
      obtain ⟨hc1, hc2⟩ := hc
      have hv : (Char.toNat c - 32).isValidChar := Or.inl (by omega)
      have hn := congrArg Char.toNat h
      rw [char_toNat_ofNat hv] at hn
      omega
    · rwa [if_neg hc] at h
  · intro h
    subst h
    rw [hun]
    by_cases hc : 97 ≤ c.toNat ∧ c.toNat ≤ 122
    · exact absurd hc (by omega)
    · rw [if_neg hc]

theorem canon_eq_delim (c d : Char) (hd : d.toNat < 65) :
    (canon true c = canon true d) ↔ c = d := by
  unfold canon
  simp only [if_pos rfl]
  have hdu : d.toUpper = d := (toUpper_eq_low d d hd).mpr rfl
  rw [hdu]
  exact toUpper_eq_low c d hd

theorem canon_delim_eq (c d : Char) (hd : d.toNat < 65) :
    (canon true d = canon true c) ↔ c = d := by
  rw [eq_comm]
  exact canon_eq_delim c d hd

theorem clsMatch_delims_neg (c : Char) :
    clsMatch true delims true c = true ↔ ¬(c = '/' ∨ c = '#' ∨ c = '?') := by
  unfold clsMatch delims
  simp only [List.any_cons, List.any_nil, Bool.or_false, bne_iff_ne, ne_eq,
    Bool.or_eq_true, decide_eq_true_eq]
  rw [canon_delim_eq c '/' (by decide), canon_delim_eq c '#' (by decide),
    canon_delim_eq c '?' (by decide)]

theorem clsMatch_delims_pos (c : Char) :
    clsMatch true delims false c = true ↔ (c = '/' ∨ c = '#' ∨ c = '?') := by
  unfold clsMatch delims
  simp only [List.any_cons, List.any_nil, Bool.or_false, bne_iff_ne, ne_eq,
    Bool.or_eq_true, decide_eq_true_eq, Bool.not_eq_false]
  rw [canon_delim_eq c '/' (by decide), canon_delim_eq c '#' (by decide),
    canon_delim_eq c '?' (by decide)]

theorem canon_slash (d : Char) : (canon true d = canon true '/') ↔ d = '/' :=
  canon_eq_delim d '/' (by decide)

theorem freeCount_le_length (l : List Char) : freeCount l ≤ l.length := by
  induction l with
  | nil => simp [freeCount]
  | cons c cs ih =>
    unfold freeCount
    split
    · simp
    · simpa using Nat.succ_le_succ ih

theorem freeLen_le (s : List Char) (pos : Nat) : freeLen s pos ≤ s.length - pos := by
  unfold freeLen
  calc freeCount (s.drop pos) ≤ (s.drop pos).length := freeCount_le_length _
    _ = s.length - pos := List.length_drop _ _

theorem freeLen_of_none (s : List Char) (pos : Nat) (h : s.get? pos = none) :
    freeLen s pos = 0 := by
  unfold freeLen
  rw [List.drop_eq_nil_of_le (by simpa using List.get?_eq_none.mp h)]
  rfl

theorem drop_cons_of_get? (s : List Char) (pos : Nat) (c : Char)
    (h : s.get? pos = some c) : s.drop pos = c :: s.drop (pos + 1) := by
  obtain ⟨hlt, hg⟩ := List.get?_eq_some.mp h
  rw [List.drop_eq_getElem_cons hlt]
  simp only [List.get_eq_getElem] at hg
  rw [hg]

theorem freeCount_cons (c : Char) (t : List Char) :
    freeCount (c :: t) = if c ∈ delims then 0 else freeCount t + 1 := rfl

theorem freeLen_of_delim (s : List Char) (pos : Nat) (c : Char)
    (h : s.get? pos = some c) (hc : c ∈ delims) : freeLen s pos = 0 := by
  unfold freeLen
  rw [drop_cons_of_get? s pos c h, freeCount_cons, if_pos hc]

theorem freeLen_of_free (s : List Char) (pos : Nat) (c : Char)
    (h : s.get? pos = some c) (hc : c ∉ delims) :
    freeLen s pos = freeLen s (pos + 1) + 1 := by
  unfold freeLen
  rw [drop_cons_of_get? s pos c h, freeCount_cons, if_neg hc]

theorem not_clsMatch_mem (c : Char) (hc : ¬clsMatch true delims true c = true) :
    c ∈ delims := by
  have hor : c = '/' ∨ c = '#' ∨ c = '?' :=
    not_not.mp fun hn => hc ((clsMatch_delims_neg c).mpr hn)
  rcases hor with h | h | h <;> simp [delims, h]

theorem clsMatch_not_mem (c : Char) (hc : clsMatch true delims true c = true) :
    c ∉ delims := by
  intro hmem
  apply (clsMatch_delims_neg c).mp hc
  have : c = '/' ∨ c = '#' ∨ c = '?' := by simpa [delims] using hmem
  exact this

theorem run_cls_of_some (f : Nat) (cs : List Char) (neg : Bool) (s : List Char)
    (pos : Nat) (caps : Caps) (c : Char) (hg : s.get? pos = some c) :
    run (f + 1) (.cls cs neg) s true pos caps =
      if clsMatch true cs neg c then [(pos + 1, caps)] else [] := by
  rw [run_cls, hg]

theorem run_cls_of_none (f : Nat) (cs : List Char) (neg : Bool) (s : List Char)
    (pos : Nat) (caps : Caps) (hg : s.get? pos = none) :
    run (f + 1) (.cls cs neg) s true pos caps = [] := by
  rw [run_cls, hg]

theorem run_lit_of_some (f : Nat) (c0 : Char) (s : List Char) (pos : Nat) (caps : Caps)
    (c : Char) (hg : s.get? pos = some c) :
    run (f + 1) (.lit c0) s true pos caps =
      if canon true c = canon true c0 then [(pos + 1, caps)] else [] := by
  rw [run_lit, hg]

theorem run_lit_of_none (f : Nat) (c0 : Char) (s : List Char) (pos : Nat) (caps : Caps)
    (hg : s.get? pos = none) :
    run (f + 1) (.lit c0) s true pos caps = [] := by
  rw [run_lit, hg]

theorem run_starLazy_cls (f : Nat) (s : List Char) (pos : Nat) (caps : Caps)
    (hf : freeLen s pos ≤ f) :
    run (f + 1) (.starLazy (.cls delims true)) s true pos caps =
      (List.range' pos (freeLen s pos + 1)).map (fun p => (p, caps)) := by
  induction f generalizing pos with
  | zero =>
    have h0 : freeLen s pos = 0 := Nat.le_zero.mp hf
    rw [run_starLazy]
    cases hg : s.get? pos with
    | none =>
      rw [run_cls_of_none 0 delims true s pos caps hg]
      simp [h0, List.range']
    | some c =>
      by_cases hc : clsMatch true delims true c = true
      · exfalso
        have := freeLen_of_free s pos c hg (clsMatch_not_mem c hc)
        omega
      · rw [run_cls_of_some 0 delims true s pos caps c hg, if_neg hc]
        simp [h0, List.range']
  | succ f ih =>
    rw [run_starLazy]
    cases hg : s.get? pos with
    | none =>
      have h0 : freeLen s pos = 0 := freeLen_of_none s pos hg
      rw [run_cls_of_none (f + 1) delims true s pos caps hg]
      simp [h0, List.range']
    | some c =>
      by_cases hc : clsMatch true delims true c = true
      · have hcm : c ∉ delims := clsMatch_not_mem c hc
        have hfree := freeLen_of_free s pos c hg hcm
        have hlt : pos < s.length := (List.get?_eq_some.mp hg).1
        rw [run_cls_of_some (f + 1) delims true s pos caps c hg, if_pos hc]
        have hfil : (([((pos + 1 : Nat), caps)]).filter
            fun pc => pos < pc.1 && pc.1 ≤ s.length) = [(pos + 1, caps)] := by
          have hd1 : decide (pos + 1 ≤ s.length) = true := decide_eq_true hlt
          simp [List.filter, hd1]
        rw [hfil]
        simp only [List.flatMap_cons, List.flatMap_nil, List.append_nil]
        rw [ih (pos + 1) (by omega), hfree]
        rw [List.range'_succ, List.map_cons, List.range'_succ, List.map_cons,
          List.range'_succ, List.map_cons]
      · have h0 : freeLen s pos = 0 := freeLen_of_delim s pos c hg (not_clsMatch_mem c hc)
        rw [run_cls_of_some (f + 1) delims true s pos caps c hg, if_neg hc]
        simp [h0, List.range']

theorem run_plusLazy_cls (f : Nat) (s : List Char) (pos : Nat) (caps : Caps)
    (hf : freeLen s pos ≤ f) :
    run (f + 1) (.plusLazy (.cls delims true)) s true pos caps =
      (List.range' (pos + 1) (freeLen s pos)).map (fun p => (p, caps)) := by
  rw [run_plusLazy]
  cases hg : s.get? pos with
  | none =>
    rw [run_cls_of_none f delims true s pos caps hg]
    rw [freeLen_of_none s pos hg]
    simp [List.range']
  | some c =>
    by_cases hc : clsMatch true delims true c = true
    · have hcm : c ∉ delims := clsMatch_not_mem c hc
      have hfree := freeLen_of_free s pos c hg hcm
      have hlt : pos < s.length := (List.get?_eq_some.mp hg).1
      rw [run_cls_of_some f delims true s pos caps c hg, if_pos hc]
      simp only [List.flatMap_cons, List.flatMap_nil, List.append_nil]
      have hcond : (decide (pos < pos + 1) && decide (pos + 1 ≤ s.length)) = true := by
        have hd1 : decide (pos + 1 ≤ s.length) = true := decide_eq_true hlt
        simp [hd1]
      rw [hcond]
      have hf1 : freeLen s (pos + 1) ≤ f - 1 := by omega
      cases f with
      | zero => omega
      | succ f' =>
        rw [if_pos rfl]
        rw [run_starLazy_cls f' s (pos + 1) caps (by omega)]
        rw [hfree, List.range'_succ, List.map_cons]
    · have h0 : freeLen s pos = 0 := freeLen_of_delim s pos c hg (not_clsMatch_mem c hc)
      rw [run_cls_of_some f delims true s pos caps c hg, if_neg hc]
      simp [h0, List.range']

theorem freeCount_all_free (l : List Char) (h : ∀ c ∈ l, c ∉ delims) :
    freeCount l = l.length := by
  induction l with
  | nil => rfl
  | cons c cs ih =>
    rw [freeCount_cons, if_neg (h c (List.mem_cons_self c cs))]
    rw [ih fun d hd => h d (List.mem_cons_of_mem c hd)]
    rfl

theorem freeCount_append_stop (l t : List Char) (d : Char) (h : ∀ c ∈ l, c ∉ delims)
    (hd : d ∈ delims) : freeCount (l ++ d :: t) = l.length := by
  induction l with
  | nil => simp [freeCount_cons, hd]
  | cons c cs ih =>
    rw [List.cons_append, freeCount_cons, if_neg (h c (List.mem_cons_self c cs))]
    rw [ih fun e he => h e (List.mem_cons_of_mem c he)]
    rfl

theorem flatMap_range'_last {α : Type _} (K : Nat → List α) (st m : Nat) (hm : 1 ≤ m)
    (hdead : ∀ p, st ≤ p → p + 1 < st + m → K p = []) :
    (List.range' st m).flatMap K = K (st + m - 1) := by
  obtain ⟨m', rfl⟩ : ∃ m', m = m' + 1 := ⟨m - 1, by omega⟩
  rw [List.range'_1_concat, List.flatMap_append]
  have hz : (List.range' st m').flatMap K = [] := by
    rw [List.flatMap_eq_nil_iff]
    intro p hp
    obtain ⟨i, hi, rfl⟩ := List.mem_range'.mp hp
    exact hdead _ (by omega) (by omega)
  rw [hz, List.nil_append]
  have : st + m' = st + (m' + 1) - 1 := by omega
  rw [← this]
  simp

theorem freeLen_zero_eq (v : List Char) : freeLen v 0 = freeCount v := by
  unfold freeLen
  rw [List.drop_zero]

theorem exec_val_default (v : List Char) (hv : v ≠ []) (hf : ∀ c ∈ v, c ∉ delims) :
    exec (.seq .bol (.seq (.ncg (.plusLazy (.cls delims true))) (.seq .eol .eps))) v true =
      some (0, v.length, []) := by
  have hvl : 1 ≤ v.length := List.length_pos.mpr hv
  have hfree : freeLen v 0 = v.length := by
    rw [freeLen_zero_eq, freeCount_all_free v hf]
  have hrun : runTop (.seq .bol (.seq (.ncg (.plusLazy (.cls delims true))) (.seq .eol .eps)))
      v true 0 [] = [(v.length, [])] := by
    unfold runTop
    rw [run_seq, run_bol, if_pos rfl]
    simp only [List.flatMap_cons, List.flatMap_nil, List.append_nil]
    rw [run_seq, run_ncg]
    rw [run_plusLazy_cls v.length v 0 [] (by rw [hfree])]
    rw [hfree, List.flatMap_map]
    have hlast : (0 + 1) + v.length - 1 = v.length := by omega
    rw [flatMap_range'_last _ (0 + 1) v.length hvl ?dead]
    case dead =>
      intro p hp1 hp2
      rw [run_seq, run_eol, if_neg (by omega)]
      rfl
    rw [hlast, run_seq, run_eol, if_pos rfl]
    simp only [List.flatMap_cons, List.flatMap_nil, List.append_nil]
    rw [run_eps]
  unfold exec
  obtain ⟨t, ht⟩ : ∃ t, v.length + 1 = t + 1 := ⟨v.length, rfl⟩
  rw [ht]
  unfold execFrom
  have hng : numGroups (.seq .bol (.seq (.ncg (.plusLazy (.cls delims true)))
      (.seq .eol .eps))) = 0 := rfl
  rw [hng]
  simp only [List.replicate]
  rw [hrun]
  rfl

theorem flatMap_eps_id (f : Nat) (s : List Char) (ci : Bool) (l : List (Nat × Caps)) :
    l.flatMap (fun pc => run (f + 1) .eps s ci pc.1 pc.2) = l := by
  induction l with
  | nil => rfl
  | cons x xs ih =>
    rw [List.flatMap_cons, ih, run_eps]
    rfl

theorem string_mk_data (t : String) : String.mk t.data = t := by
  cases t
  rfl

theorem runAB (a b : List Char) (ha : a ≠ []) (hb : b ≠ [])
    (hfa : ∀ c ∈ a, c ∉ delims) (hfb : ∀ c ∈ b, c ∉ delims) :
    runTop
      (.seq .bol
        (.seq (.ncg (.seq (.seq (.lit '/') .eps)
            (.seq (.grp 0 (.plusLazy (.cls delims true))) .eps)))
          (.seq (.ncg (.seq (.seq (.lit '/') .eps)
              (.seq (.grp 1 (.plusLazy (.cls delims true))) .eps)))
            (.seq (.quest (.cls delims false)) (.seq .eol .eps)))))
      (('/' :: a) ++ ('/' :: b)) true 0 [none, none] =
      [((('/' :: a) ++ ('/' :: b)).length,
        [some (String.mk a), some (String.mk b)])] := by
  set s : List Char := ('/' :: a) ++ ('/' :: b) with hs
  have hal : 1 ≤ a.length := List.length_pos.mpr ha
  have hbl : 1 ≤ b.length := List.length_pos.mpr hb
  have hlen : s.length = a.length + b.length + 2 := by
    simp [hs]
    omega
  have hget0 : s.get? 0 = some '/' := rfl
  have hdrop1 : s.drop 1 = a ++ '/' :: b := rfl
  have hgetA : ∀ p, 1 ≤ p → p ≤ a.length → ∃ c, c ∈ a ∧ s.get? p = some c := by
    intro p hp1 hp2
    obtain ⟨i, rfl⟩ : ∃ i, p = i + 1 := ⟨p - 1, by omega⟩
    have h1 : s.get? (i + 1) = (a ++ '/' :: b).get? i := by
      rw [hs, List.cons_append, List.get?_cons_succ]
    have h2 : (a ++ '/' :: b).get? i = a.get? i :=
      List.get?_append (by omega)
    cases hv : a.get? i with
    | none =>
      exfalso
      have := List.get?_eq_none.mp hv
      omega
    | some c =>
      exact ⟨c, List.get?_mem hv, by rw [h1, h2, hv]⟩
  have hgetSlash : s.get? (a.length + 1) = some '/' := by
    have h1 : s.get? (a.length + 1) = (a ++ '/' :: b).get? a.length := by
      rw [hs, List.cons_append, List.get?_cons_succ]
    rw [h1, List.get?_append_right (Nat.le_refl _)]
    simp
  have hdropA2 : s.drop (a.length + 2) = b := by
    rw [hs, List.cons_append]
    rw [show a.length + 2 = (a.length + 1) + 1 from rfl]
    rw [List.drop_succ_cons]
    rw [show a.length + 1 = a.length + 1 from rfl]
    have : (a ++ '/' :: b).drop (a.length + 1) = ('/' :: b).drop 1 := List.drop_append 1
    rw [this]
    rfl
  have hgetB : ∀ p, a.length + 2 ≤ p → p < a.length + b.length + 2 →
      ∃ c, c ∈ b ∧ s.get? p = some c := by
    intro p hp1 hp2
    have h1 : s.get? p = (s.drop (a.length + 2)).get? (p - (a.length + 2)) := by
      rw [List.get?_drop]
      congr 1
      omega
    rw [hdropA2] at h1
    cases hv : b.get? (p - (a.length + 2)) with
    | none =>
      exfalso
      have := List.get?_eq_none.mp hv
      omega
    | some c =>
      exact ⟨c, List.get?_mem hv, by rw [h1, hv]⟩
  have hgetEnd : s.get? (a.length + b.length + 2) = none := by
    rw [List.get?_eq_none]
    omega
  have hfree1 : freeLen s 1 = a.length := by
    unfold freeLen
    rw [hdrop1]
    exact freeCount_append_stop a b '/' hfa (by simp [delims])
  have hfreeB : freeLen s (a.length + 2) = b.length := by
    unfold freeLen
    rw [hdropA2]
    exact freeCount_all_free b hfb
  have hsliceA : (s.drop 1).take a.length = a := by
    rw [hdrop1]
    exact List.take_left a ('/' :: b)
  have hsliceB : (s.drop (a.length + 2)).take b.length = b := by
    rw [hdropA2]
    exact List.take_length b
  have hplt : ∀ p c, s.get? p = some c → p < s.length :=
    fun p c hg => (List.get?_eq_some.mp hg).1
  -- the trailing [\/#\?]?$ tail
  have htail_dead : ∀ (p : Nat) (caps : Caps) (c : Char), s.get? p = some c → c ∈ b →
      run (s.length + 1) (.seq (.quest (.cls delims false)) (.seq .eol .eps))
        s true p caps = [] := by
    intro p caps c hg hc
    rw [run_seq, run_quest]
    rw [run_cls_of_some _ delims false s p caps c hg]
    have hneg : ¬clsMatch true delims false c = true := by
      intro hcm
      have hmem : c ∈ delims := by
        rcases (clsMatch_delims_pos c).mp hcm with h | h | h <;> simp [delims, h]
      exact hfb c hc hmem
    rw [if_neg hneg]
    simp only [List.nil_append, List.flatMap_cons, List.flatMap_nil, List.append_nil]
    rw [run_seq, run_eol, if_neg (by have := hplt p c hg; omega)]
    rfl
  have htail_last : ∀ (caps : Caps),
      run (s.length + 1) (.seq (.quest (.cls delims false)) (.seq .eol .eps))
        s true s.length caps = [(s.length, caps)] := by
    intro caps
    rw [run_seq, run_quest]
    rw [run_cls_of_none _ delims false s s.length caps (List.get?_eq_none.mpr (Nat.le_refl _))]
    simp only [List.nil_append, List.flatMap_cons, List.flatMap_nil, List.append_nil]
    rw [run_seq, run_eol, if_pos rfl]
    simp only [List.flatMap_cons, List.flatMap_nil, List.append_nil]
    rw [run_eps]
  -- a key fragment interior: literal '/', then the lazy capture
  have hfrag : ∀ (idx : Nat) (pos : Nat) (caps : Caps),
      s.get? pos = some '/' →
      run (s.length + 1)
        (.seq (.seq (.lit '/') .eps) (.seq (.grp idx (.plusLazy (.cls delims true))) .eps))
        s true pos caps =
      (List.range' (pos + 1 + 1) (freeLen s (pos + 1))).map
        (fun p => (p, caps.set idx
          (some (String.mk ((s.drop (pos + 1)).take (p - (pos + 1))))))) := by
    intro idx pos caps hg
    rw [run_seq, run_seq]
    rw [run_lit_of_some _ '/' s pos caps '/' hg, if_pos rfl]
    simp only [List.flatMap_cons, List.flatMap_nil, List.append_nil]
    rw [run_eps]
    simp only [List.flatMap_cons, List.flatMap_nil, List.append_nil]
    rw [run_seq, run_grp]
    rw [run_plusLazy_cls s.length s (pos + 1) caps
      (by have := freeLen_le s (pos + 1); omega)]
    rw [flatMap_eps_id, List.map_map]
    rfl
  -- the second key fragment followed by the tail, at a dead position
  have hKdead : ∀ (p : Nat) (caps : Caps) (c : Char), s.get? p = some c → c ∈ a →
      run (s.length + 1)
        (.seq (.ncg (.seq (.seq (.lit '/') .eps)
            (.seq (.grp 1 (.plusLazy (.cls delims true))) .eps)))
          (.seq (.quest (.cls delims false)) (.seq .eol .eps)))
        s true p caps = [] := by
    intro p caps c hg hc
    rw [run_seq, run_ncg, run_seq, run_seq]
    rw [run_lit_of_some _ '/' s p caps c hg]
    have hneq : ¬canon true c = canon true '/' := by
      intro hcc
      exact hfa c hc (by
        rw [(canon_slash c).mp hcc]
        simp [delims])
    rw [if_neg hneq]
    rfl
  -- the second key fragment followed by the tail, at the separator
  have hKlast : ∀ (caps : Caps),
      run (s.length + 1)
        (.seq (.ncg (.seq (.seq (.lit '/') .eps)
            (.seq (.grp 1 (.plusLazy (.cls delims true))) .eps)))
          (.seq (.quest (.cls delims false)) (.seq .eol .eps)))
        s true (a.length + 1) caps =
      [(s.length, caps.set 1 (some (String.mk b)))] := by
    intro caps
    rw [run_seq, run_ncg]
    rw [hfrag 1 (a.length + 1) caps hgetSlash]
    rw [show a.length + 1 + 1 = a.length + 2 from rfl, hfreeB]
    rw [List.flatMap_map]
    rw [flatMap_range'_last _ (a.length + 1 + 1 + 1) b.length hbl ?bdead]
    case bdead =>
      intro p hp1 hp2
      obtain ⟨c, hcb, hgc⟩ := hgetB p (by omega) (by omega)
      exact htail_dead p _ c hgc hcb
    have hlast : a.length + 1 + 1 + 1 + b.length - 1 = s.length := by omega
    rw [hlast]
    have hslice : (s.drop (a.length + 1 + 1)).take (s.length - (a.length + 1 + 1)) = b := by
      rw [show a.length + 1 + 1 = a.length + 2 from rfl,
        show s.length - (a.length + 2) = b.length from by omega]
      exact hsliceB
    rw [hslice]
    exact htail_last _
  -- assemble the whole route
  unfold runTop
  rw [run_seq, run_bol, if_pos rfl]
  simp only [List.flatMap_cons, List.flatMap_nil, List.append_nil]
  rw [run_seq, run_ncg]
  rw [hfrag 0 0 [none, none] hget0]
  rw [show (0 : Nat) + 1 = 1 from rfl, hfree1]
  rw [List.flatMap_map]
  rw [flatMap_range'_last _ (1 + 1) a.length hal ?adead]
  case adead =>
    intro p hp1 hp2
    obtain ⟨c, hca, hgc⟩ := hgetA p (by omega) (by omega)
    exact hKdead p _ c hgc hca
  have hlastA : 1 + 1 + a.length - 1 = a.length + 1 := by omega
  rw [hlastA]
  have hslice : (s.drop 1).take (a.length + 1 - 1) = a := by
    rw [show a.length + 1 - 1 = a.length from rfl]
    exact hsliceA
  rw [hslice]
  rw [hKlast]
  have hset : (([none, none] : Caps).set 0 (some (String.mk a))).set 1
      (some (String.mk b)) = [some (String.mk a), some (String.mk b)] := rfl
  rw [hset]

theorem execAB (a b : List Char) (ha : a ≠ []) (hb : b ≠ [])
    (hfa : ∀ c ∈ a, c ∉ delims) (hfb : ∀ c ∈ b, c ∉ delims) :
    exec
      (.seq .bol
        (.seq (.ncg (.seq (.seq (.lit '/') .eps)
            (.seq (.grp 0 (.plusLazy (.cls delims true))) .eps)))
          (.seq (.ncg (.seq (.seq (.lit '/') .eps)
              (.seq (.grp 1 (.plusLazy (.cls delims true))) .eps)))
            (.seq (.quest (.cls delims false)) (.seq .eol .eps)))))
      (('/' :: a) ++ ('/' :: b)) true =
      some (0, (('/' :: a) ++ ('/' :: b)).length,
        [some (String.mk a), some (String.mk b)]) := by
  unfold exec execFrom
  have hng : numGroups
      (.seq .bol
        (.seq (.ncg (.seq (.seq (.lit '/') .eps)
            (.seq (.grp 0 (.plusLazy (.cls delims true))) .eps)))
          (.seq (.ncg (.seq (.seq (.lit '/') .eps)
              (.seq (.grp 1 (.plusLazy (.cls delims true))) .eps)))
            (.seq (.quest (.cls delims false)) (.seq .eol .eps))))) = 2 := rfl
  rw [hng]
  have hrep : List.replicate 2 (none : Option String) = [none, none] := rfl
  rw [hrep]
  rw [runAB a b ha hb hfa hfb]
  rfl

theorem matchAB (a b : List Char) (ha : a ≠ []) (hb : b ≠ [])
    (hfa : ∀ c ∈ a, c ∉ delims) (hfb : ∀ c ∈ b, c ∉ delims) :
    regexpToFunction
      (.seq .bol
        (.seq (.ncg (.seq (.seq (.lit '/') .eps)
            (.seq (.grp 0 (.plusLazy (.cls delims true))) .eps)))
          (.seq (.ncg (.seq (.seq (.lit '/') .eps)
              (.seq (.grp 1 (.plusLazy (.cls delims true))) .eps)))
            (.seq (.quest (.cls delims false)) (.seq .eol .eps)))))
      true
      [{ name := .str "a", pre := "/", suffix := "", pattern := "[^\\/#\\?]+?", modifier := "" },
       { name := .str "b", pre := "/", suffix := "", pattern := "[^\\/#\\?]+?", modifier := "" }]
      (fun x _ => x)
      ("/" ++ String.mk a ++ "/" ++ String.mk b) =
    some { path := "/" ++ String.mk a ++ "/" ++ String.mk b, index := 0,
           params := [("a", .one (String.mk a)), ("b", .one (String.mk b))] } := by
  unfold regexpToFunction
  have hdata : ("/" ++ String.mk a ++ "/" ++ String.mk b).data = ('/' :: a) ++ ('/' :: b) := by
    simp [String.data_append]
  rw [hdata, execAB a b ha hb hfa hfb]
  dsimp only
  have hpath : String.mk (((('/' :: a) ++ ('/' :: b)).drop 0).take
      ((('/' :: a) ++ ('/' :: b)).length - 0)) = "/" ++ String.mk a ++ "/" ++ String.mk b := by
    rw [List.drop_zero, Nat.sub_zero, List.take_length]
    rw [← hdata, string_mk_data]
  rw [hpath]
  have hparams : buildParams (fun x _ => x)
      [{ name := .str "a", pre := "/", suffix := "", pattern := "[^\\/#\\?]+?", modifier := "" },
       { name := .str "b", pre := "/", suffix := "", pattern := "[^\\/#\\?]+?", modifier := "" }]
      [some (String.mk a), some (String.mk b)] =
      [("a", .one (String.mk a)), ("b", .one (String.mk b))] := by
    simp [buildParams, setParam, decodeVal, nameStr]
  rw [hparams]

theorem reTest_default (k : Key) (hk : k.pattern = "[^\\/#\\?]+?") (v : List Char)
    (hv : v ≠ []) (hf : ∀ c ∈ v, c ∉ delims) :
    reTest (valRe patInterp k) true (String.mk v) = true := by
  have hpi : patInterp "[^\\/#\\?]+?" = .plusLazy (.cls delims true) := by decide
  have hval : valRe patInterp k =
      .seq .bol (.seq (.ncg (.plusLazy (.cls delims true))) (.seq .eol .eps)) := by
    unfold valRe
    rw [hk, hpi]
    rfl
  rw [reTest, hval]
  have hd : (String.mk v).data = v := rfl
  rw [hd, exec_val_default v hv hf]
  rfl

theorem buildAB (a b : List Char) (ha : a ≠ []) (hb : b ≠ [])
    (hfa : ∀ c ∈ a, c ∉ delims) (hfb : ∀ c ∈ b, c ∉ delims) :
    tokensToFunction patInterp
      [.key { name := .str "a", pre := "/", suffix := "", pattern := "[^\\/#\\?]+?", modifier := "" },
       .key { name := .str "b", pre := "/", suffix := "", pattern := "[^\\/#\\?]+?", modifier := "" }]
      {}
      (some fun n =>
        if n = "a" then some (.s (String.mk a))
        else if n = "b" then some (.s (String.mk b)) else none) =
      .ok ("/" ++ String.mk a ++ "/" ++ String.mk b) := by
  have hta := reTest_default
    { name := .str "a", pre := "/", suffix := "", pattern := "[^\\/#\\?]+?", modifier := "" }
    rfl a ha hfa
  have htb := reTest_default
    { name := .str "b", pre := "/", suffix := "", pattern := "[^\\/#\\?]+?", modifier := "" }
    rfl b hb hfb
  unfold tokensToFunction
  rw [List.foldlM_cons]
  have hstep1 : tokenStep patInterp {}
      (some fun n =>
        if n = "a" then some (.s (String.mk a))
        else if n = "b" then some (.s (String.mk b)) else none) ""
      (.key { name := .str "a", pre := "/", suffix := "", pattern := "[^\\/#\\?]+?", modifier := "" }) =
      .ok ("" ++ "/" ++ String.mk a ++ "") := by
    simp [tokenStep, nameStr, jsString, flagCI, hta]
  rw [hstep1]
  show List.foldlM _ ("" ++ "/" ++ String.mk a ++ "") _ = _
  rw [List.foldlM_cons]
  have hstep2 : tokenStep patInterp {}
      (some fun n =>
        if n = "a" then some (.s (String.mk a))
        else if n = "b" then some (.s (String.mk b)) else none)
      ("" ++ "/" ++ String.mk a ++ "")
      (.key { name := .str "b", pre := "/", suffix := "", pattern := "[^\\/#\\?]+?", modifier := "" }) =
      .ok ("" ++ "/" ++ String.mk a ++ "" ++ "/" ++ String.mk b ++ "") := by
    simp [tokenStep, nameStr, jsString, flagCI, htb]
  rw [hstep2]
  show List.foldlM _ ("" ++ "/" ++ String.mk a ++ "" ++ "/" ++ String.mk b ++ "") _ = _
  rw [List.foldlM_nil]
  have hstr : ("" ++ "/" ++ String.mk a ++ "" ++ "/" ++ String.mk b ++ "") =
      ("/" ++ String.mk a ++ "/" ++ String.mk b) := by
    simp [String.append_empty, String.empty_append]
  rw [hstr]
  rfl

/-- C1 amended: round-trip for delimiter-separated parameters.  For the
pattern "/:a/:b" — literal-and-named-required-parameters only, each
parameter preceded by its "/" prefix — and every assignment of nonempty
delimiter-free values (exactly the values accepted by the Keys' default
pattern), the compiled builder produces "/" ++ a ++ "/" ++ b, and the
compiled matcher maps that string back to params structurally equal to
the assignment. -/
theorem c1_roundtrip (a b : List Char) (ha : a ≠ []) (hb : b ≠ [])
    (hfa : ∀ c ∈ a, c ∉ delims) (hfb : ∀ c ∈ b, c ∉ delims) :
    (compileModel patInterp "/:a/:b" {}).map
        (fun f => f (some fun n =>
          if n = "a" then some (.s (String.mk a))
          else if n = "b" then some (.s (String.mk b)) else none)) =
      .ok (.ok ("/" ++ String.mk a ++ "/" ++ String.mk b)) ∧
    (matchModel patInterp "/:a/:b" {}).map
        (fun f => f ("/" ++ String.mk a ++ "/" ++ String.mk b)) =
      .ok (some { path := "/" ++ String.mk a ++ "/" ++ String.mk b, index := 0,
                  params := [("a", .one (String.mk a)), ("b", .one (String.mk b))] }) := by
  have hparse : parse "/:a/:b" {} = .ok
      [.key { name := .str "a", pre := "/", suffix := "", pattern := "[^\\/#\\?]+?", modifier := "" },
       .key { name := .str "b", pre := "/", suffix := "", pattern := "[^\\/#\\?]+?", modifier := "" }] := by
    decide
  constructor
  · unfold compileModel
    rw [hparse]
    show Except.ok _ = _
    exact congrArg Except.ok (buildAB a b ha hb hfa hfb)
  · have hcomp : stringToRegexpRe patInterp "/:a/:b" [] {} = .ok
        (.seq .bol
          (.seq (.ncg (.seq (.seq (.lit '/') .eps)
              (.seq (.grp 0 (.plusLazy (.cls delims true))) .eps)))
            (.seq (.ncg (.seq (.seq (.lit '/') .eps)
                (.seq (.grp 1 (.plusLazy (.cls delims true))) .eps)))
              (.seq (.quest (.cls delims false)) (.seq .eol .eps)))),
         [{ name := .str "a", pre := "/", suffix := "", pattern := "[^\\/#\\?]+?", modifier := "" },
          { name := .str "b", pre := "/", suffix := "", pattern := "[^\\/#\\?]+?", modifier := "" }]) := by
      decide
    unfold matchModel
    rw [hcomp]
    show Except.ok _ = _
    exact congrArg Except.ok (matchAB a b ha hb hfa hfb)

/-- Witness for `c1_roundtrip` at a = "x", b = "y". -/
theorem c1_roundtrip_witness :
    (compileModel patInterp "/:a/:b" {}).map
        (fun f => f (some fun n =>
          if n = "a" then some (.s (String.mk ['x']))
          else if n = "b" then some (.s (String.mk ['y'])) else none)) =
      .ok (.ok ("/" ++ String.mk ['x'] ++ "/" ++ String.mk ['y'])) ∧
    (matchModel patInterp "/:a/:b" {}).map
        (fun f => f ("/" ++ String.mk ['x'] ++ "/" ++ String.mk ['y'])) =
      .ok (some { path := "/" ++ String.mk ['x'] ++ "/" ++ String.mk ['y'], index := 0,
                  params := [("a", .one (String.mk ['x'])), ("b", .one (String.mk ['y']))] }) :=
  c1_roundtrip ['x'] ['y'] (by decide) (by decide) (by decide) (by decide)
